import Mathlib

/-!
# Verification of the SAT scheduling core of Sports-Tournament-Scheduling

Shallow embedding of the boolean encodings (`sat_encodings.py`), the circle
method skeleton generator (`utils.py`), the core constraint builder and the
balancing/optimization layer (`solve.py`), and the solver backends
(`solver_backend.py`), together with proofs about them.

Z3 formulas are embedded by their truth value under a boolean assignment:
each `Bool(name)` variable is replaced by the value some assignment gives
it, so a formula built from a list of variables becomes a boolean function
of the corresponding list of values (auxiliary variables, which the Python
code keys by distinct name strings, become extra assignment functions keyed
by the same data the names are built from).
-/

namespace SportsSched

/-! ## Boolean encoding primitives (`sat_encodings.py`, Z3 branch) -/

/-- Truth value of a z3 `Implies` under an assignment. -/
def impB (a b : Bool) : Bool := !a || b

/-- Number of true values in a list (the number of satisfied literals). -/
def countTrue (l : List Bool) : Nat := l.countP (fun b => b)

/-- All pairs produced by `itertools.combinations(l, 2)`, in order. -/
def combos2 : List α → List (α × α)
  | [] => []
  | x :: xs => (xs.map fun y => (x, y)) ++ combos2 xs

/-- `at_least_one` (Z3 branch): `Or(bool_vars)`; the empty list returns `True`. -/
def atLeastOne (l : List Bool) : Bool :=
  if l.isEmpty then true else l.any (fun b => b)

/-- `at_most_one` (Z3 branch): conjunction of negated pairwise conjunctions;
lists of length at most one return `True`. -/
def atMostOne (l : List Bool) : Bool :=
  if l.length ≤ 1 then true
  else (combos2 l).all fun pr => !(pr.1 && pr.2)

/-- `exactly_one` (Z3 branch): the list of constraints it adds to the solver.
On the empty list nothing is added; otherwise one conjunction is added. -/
def exactlyOneAdded (l : List Bool) : List Bool :=
  if l.isEmpty then [] else [atLeastOne l && atMostOne l]

/-- `exactly_one`: the Python return value — `False` on the empty list,
`None` (no explicit return) otherwise. -/
def exactlyOneRet (l : List Bool) : Option Bool :=
  if l.isEmpty then some false else none

/-- Truth of all constraints `exactly_one` adds. -/
def exactlyOneHolds (l : List Bool) : Bool := (exactlyOneAdded l).all (fun b => b)

/-- `at_most_k_seq_z3`: truth of the sequential-counter formula under an
assignment in which the input variables take the values `vals` and the
auxiliary variable `s_{name}_{i}_{j}` takes the value `s i j`. -/
def atMostKSeq (vals : List Bool) (k : Nat) (s : Nat → Nat → Bool) : Bool :=
  let n := vals.length
  if n ≤ k then true
  else if k = 0 then vals.all fun v => !v
  else
    impB (vals.getD 0 false) (s 0 0) &&
    impB (s (n - 2) (k - 1)) (!(vals.getD (n - 1) false)) &&
    ((List.range' 1 (k - 1)).all fun j => !(s 0 j)) &&
    ((List.range' 1 (n - 2)).all fun i =>
      impB (vals.getD i false || s (i - 1) 0) (s i 0) &&
      ((List.range' 1 (k - 1)).all fun j =>
        impB ((vals.getD i false && s (i - 1) (j - 1)) || s (i - 1) j) (s i j)) &&
      impB (s (i - 1) (k - 1)) (!(vals.getD i false)))

/-- `at_most_k` (Z3 branch): the constraints it adds — nothing when
`len(vars) ≤ k`, otherwise the sequential-counter formula. -/
def atMostKAdded (vals : List Bool) (k : Nat) (s : Nat → Nat → Bool) : List Bool :=
  if vals.length ≤ k then [] else [atMostKSeq vals k s]

/-- Truth of all constraints `at_most_k` adds. -/
def atMostKHolds (vals : List Bool) (k : Nat) (s : Nat → Nat → Bool) : Bool :=
  (atMostKAdded vals k s).all (fun b => b)

/-- Number of true values among the first `i` entries. -/
def prefCnt (vals : List Bool) (i : Nat) : Nat := countTrue (vals.take i)

/-- The canonical sequential-counter auxiliary assignment:
`s i j` is true iff the prefix of length `i+1` holds at least `j+1` trues. -/
def canonAux (vals : List Bool) (i j : Nat) : Bool :=
  decide (j + 1 ≤ prefCnt vals (i + 1))

/-! ### Counting lemmas -/

theorem countTrue_nil : countTrue [] = 0 := rfl

theorem countTrue_cons (b : Bool) (l : List Bool) :
    countTrue (b :: l) = countTrue l + b.toNat := by
  cases b with
  | false => simp [countTrue, List.countP_cons]
  | true => simp [countTrue, List.countP_cons]

theorem countTrue_append (l₁ l₂ : List Bool) :
    countTrue (l₁ ++ l₂) = countTrue l₁ + countTrue l₂ := by
  simp [countTrue, List.countP_append]

theorem countTrue_le_length (l : List Bool) : countTrue l ≤ l.length := by
  simpa [countTrue] using List.countP_le_length (l := l) (p := fun b => b)

theorem countTrue_eq_zero {l : List Bool} :
    countTrue l = 0 ↔ ∀ b ∈ l, b = false := by
  simp [countTrue, List.countP_eq_zero]

theorem countTrue_pos {l : List Bool} :
    0 < countTrue l ↔ ∃ b ∈ l, b = true := by
  simp [countTrue, List.countP_pos_iff]

theorem atLeastOne_iff {l : List Bool} (h : l ≠ []) :
    atLeastOne l = true ↔ 0 < countTrue l := by
  rw [atLeastOne, if_neg (by simpa using h), countTrue_pos]
  simp

theorem countTrue_map_not (l : List Bool) :
    countTrue (l.map fun b => !b) = l.length - countTrue l := by
  induction l with
  | nil => rfl
  | cons b t ih =>
    have hle := countTrue_le_length t
    cases b with
    | false => simp [countTrue_cons, ih]; omega
    | true => simp [countTrue_cons, ih]

theorem all_map_eq (l : List α) (f : α → β) (p : β → Bool) :
    (l.map f).all p = l.all fun a => p (f a) := by
  induction l with
  | nil => rfl
  | cons x xs ih => simp [ih]

theorem combos2_all_iff (l : List Bool) :
    ((combos2 l).all fun pr => !(pr.1 && pr.2)) = true ↔ countTrue l ≤ 1 := by
  induction l with
  | nil => simp [combos2, countTrue_nil]
  | cons b t ih =>
    rw [combos2, List.all_append, Bool.and_eq_true, ih, all_map_eq]
    cases b with
    | false => simp [countTrue_cons]
    | true =>
      simp only [countTrue_cons, Bool.toNat_true]
      constructor
      · rintro ⟨hall, -⟩
        have h0 : countTrue t = 0 := by
          rw [countTrue_eq_zero]
          intro x hx
          simpa using List.all_eq_true.mp hall x hx
        omega
      · intro h
        have h0 : countTrue t = 0 := by omega
        rw [countTrue_eq_zero] at h0
        exact ⟨List.all_eq_true.mpr fun x hx => by simp [h0 x hx], by omega⟩

/-- `at_most_one` is exact: its pairwise formula holds iff at most one value
is true. -/
theorem atMostOne_iff (l : List Bool) :
    atMostOne l = true ↔ countTrue l ≤ 1 := by
  rw [atMostOne]
  by_cases h : l.length ≤ 1
  · rw [if_pos h]
    exact iff_of_true rfl ((countTrue_le_length l).trans h)
  · rw [if_neg h]
    exact combos2_all_iff l

theorem exactlyOneHolds_iff {l : List Bool} (h : l ≠ []) :
    exactlyOneHolds l = true ↔ countTrue l = 1 := by
  rw [exactlyOneHolds, exactlyOneAdded, if_neg (by simpa using h)]
  simp only [List.all_cons, List.all_nil, Bool.and_true, Bool.and_eq_true]
  rw [atLeastOne_iff h, atMostOne_iff]
  omega

theorem impB_eq_true {a b : Bool} : impB a b = true ↔ (a = true → b = true) := by
  cases a with
  | false => simp [impB]
  | true => simp [impB]

/-! ### Prefix counts and the sequential counter -/

theorem prefCnt_zero (vals : List Bool) : prefCnt vals 0 = 0 := rfl

theorem prefCnt_succ_cons (b : Bool) (t : List Bool) (i : Nat) :
    prefCnt (b :: t) (i + 1) = prefCnt t i + b.toNat := by
  rw [prefCnt, List.take_succ_cons, countTrue_cons]
  rfl

theorem prefCnt_succ (vals : List Bool) (i : Nat) :
    prefCnt vals (i + 1) = prefCnt vals i + (vals.getD i false).toNat := by
  induction vals generalizing i with
  | nil => simp [prefCnt, countTrue_nil]
  | cons b t ih =>
    cases i with
    | zero => simpa [prefCnt_zero] using prefCnt_succ_cons b t 0
    | succ i =>
      rw [prefCnt_succ_cons, ih i, prefCnt_succ_cons]
      simp only [List.getD_cons_succ]
      omega

theorem prefCnt_mono (vals : List Bool) {i j : Nat} (h : i ≤ j) :
    prefCnt vals i ≤ prefCnt vals j := by
  induction h with
  | refl => exact le_rfl
  | step h2 ih => exact ih.trans (by rw [prefCnt_succ]; exact Nat.le_add_right _ _)

theorem prefCnt_le (vals : List Bool) (i : Nat) : prefCnt vals i ≤ i :=
  (countTrue_le_length _).trans (List.length_take_le i vals)

theorem prefCnt_le_countTrue (vals : List Bool) (i : Nat) :
    prefCnt vals i ≤ countTrue vals := by
  conv_rhs => rw [← List.take_append_drop i vals]
  rw [countTrue_append]
  exact Nat.le_add_right _ _

theorem prefCnt_of_length_le (vals : List Bool) {i : Nat} (h : vals.length ≤ i) :
    prefCnt vals i = countTrue vals := by
  rw [prefCnt, List.take_of_length_le h]

/-- Discrete intermediate value property: for each `c` below the total count
there is an index where the prefix count is exactly `c` and the value there
is true. -/
theorem exists_nth_true (vals : List Bool) :
    ∀ c, c < countTrue vals →
      ∃ z, z < vals.length ∧ prefCnt vals z = c ∧ vals.getD z false = true := by
  induction vals with
  | nil => intro c hc; simp [countTrue_nil] at hc
  | cons b t ih =>
    intro c hc
    cases b with
    | true =>
      cases c with
      | zero => exact ⟨0, by simp, prefCnt_zero _, rfl⟩
      | succ c =>
        rw [countTrue_cons] at hc
        obtain ⟨z, hz, hpc, hv⟩ := ih c (by simpa using hc)
        exact ⟨z + 1, by simpa using hz, by rw [prefCnt_succ_cons, hpc]; simp, by simpa using hv⟩
    | false =>
      rw [countTrue_cons] at hc
      obtain ⟨z, hz, hpc, hv⟩ := ih c (by simpa using hc)
      exact ⟨z + 1, by simpa using hz, by rw [prefCnt_succ_cons, hpc]; simp, by simpa using hv⟩

/-- Soundness of the sequential counter: any assignment of the auxiliary
variables that satisfies the formula certifies that at most `k` inputs are
true. -/
theorem atMostKSeq_sound {vals : List Bool} {k : Nat} {s : Nat → Nat → Bool}
    (h : atMostKSeq vals k s = true) : countTrue vals ≤ k := by
  by_cases hnk : vals.length ≤ k
  · exact (countTrue_le_length vals).trans hnk
  by_cases hk0 : k = 0
  · subst hk0
    rw [atMostKSeq, if_neg hnk, if_pos rfl] at h
    rw [Nat.le_zero, countTrue_eq_zero]
    intro b hb
    simpa using List.all_eq_true.mp h b hb
  have hn : k < vals.length := lt_of_not_ge hnk
  have hk1 : 1 ≤ k := Nat.one_le_iff_ne_zero.mpr hk0
  have hn2 : 2 ≤ vals.length := by omega
  rw [atMostKSeq, if_neg hnk, if_neg hk0] at h
  simp only [Bool.and_eq_true, List.all_eq_true, List.mem_range'_1, impB_eq_true,
    Bool.or_eq_true, Bool.not_eq_true'] at h
  obtain ⟨⟨⟨h1, h2⟩, h3⟩, h4⟩ := h
  -- propagation: the canonical meaning is a lower bound for any solution
  have prop : ∀ i, i ≤ vals.length - 2 → ∀ j, j ≤ k - 1 →
      j + 1 ≤ prefCnt vals (i + 1) → s i j = true := by
    intro i
    induction i with
    | zero =>
      intro _ j hj hpc
      rw [Nat.zero_add] at hpc
      have hle := prefCnt_le vals 1
      have hj0 : j = 0 := by omega
      subst hj0
      have h01 : prefCnt vals 1 = (vals.getD 0 false).toNat := by
        simpa [prefCnt_zero] using prefCnt_succ vals 0
      apply h1
      rw [h01] at hpc
      cases hv : vals.getD 0 false with
      | false => rw [hv] at hpc; simp at hpc
      | true => rfl
    | succ i ih =>
      intro hi j hj hpc
      have hi1 : 1 ≤ i + 1 := by omega
      have hi2 : i + 1 < 1 + (vals.length - 2) := by omega
      obtain ⟨⟨ha, hb⟩, hc⟩ := h4 (i + 1) ⟨hi1, hi2⟩
      rw [prefCnt_succ] at hpc
      cases hv : vals.getD (i + 1) false with
      | false =>
        rw [hv] at hpc
        simp only [Bool.toNat_false, Nat.add_zero] at hpc
        have hs : s i j = true := ih (by omega) j hj hpc
        rcases Nat.eq_zero_or_pos j with hj0 | hj0
        · subst hj0
          exact ha (Or.inr (by rwa [Nat.add_sub_cancel]))
        · refine hb j ⟨hj0, by omega⟩ (Or.inr ?_)
          rwa [Nat.add_sub_cancel]
      | true =>
        rw [hv] at hpc
        simp only [Bool.toNat_true] at hpc
        rcases Nat.eq_zero_or_pos j with hj0 | hj0
        · subst hj0
          exact ha (Or.inl hv)
        · have hs : s i (j - 1) = true := ih (by omega) (j - 1) (by omega) (by omega)
          refine hb j ⟨hj0, by omega⟩ (Or.inl ?_)
          rw [Nat.add_sub_cancel]
          exact ⟨hv, hs⟩
  by_contra hcnt
  have hklt : k < countTrue vals := lt_of_not_ge hcnt
  obtain ⟨z, hz, hpz, hvz⟩ := exists_nth_true vals k hklt
  have hz1 : 1 ≤ z := by
    rcases Nat.eq_zero_or_pos z with h0 | h0
    · rw [h0, prefCnt_zero] at hpz; omega
    · exact h0
  have hsk : s (z - 1) (k - 1) = true := by
    apply prop (z - 1) (by omega) (k - 1) le_rfl
    have : z - 1 + 1 = z := by omega
    rw [this, hpz]
    omega
  rcases Nat.lt_or_ge z (vals.length - 1) with hzlt | hzge
  · obtain ⟨⟨-, -⟩, hc⟩ := h4 z ⟨hz1, by omega⟩
    rw [hc hsk] at hvz
    exact Bool.false_ne_true hvz
  · have hzeq : z = vals.length - 1 := by omega
    have hz2 : z - 1 = vals.length - 2 := by omega
    rw [hz2] at hsk
    rw [← hzeq] at h2
    rw [h2 hsk] at hvz
    exact Bool.false_ne_true hvz

/-- Completeness of the sequential counter: if at most `k` inputs are true,
the canonical prefix-count auxiliary assignment satisfies the formula. -/
theorem atMostKSeq_canon {vals : List Bool} {k : Nat}
    (h : countTrue vals ≤ k) : atMostKSeq vals k (canonAux vals) = true := by
  by_cases hnk : vals.length ≤ k
  · rw [atMostKSeq, if_pos hnk]
  by_cases hk0 : k = 0
  · subst hk0
    rw [atMostKSeq, if_neg hnk, if_pos rfl]
    rw [Nat.le_zero, countTrue_eq_zero] at h
    exact List.all_eq_true.mpr fun b hb => by simp [h b hb]
  have hn : k < vals.length := lt_of_not_ge hnk
  have hk1 : 1 ≤ k := Nat.one_le_iff_ne_zero.mpr hk0
  rw [atMostKSeq, if_neg hnk, if_neg hk0]
  simp only [Bool.and_eq_true, List.all_eq_true, List.mem_range'_1, impB_eq_true,
    Bool.or_eq_true, Bool.not_eq_true']
  refine ⟨⟨⟨?_, ?_⟩, ?_⟩, ?_⟩
  · -- vals[0] → s 0 0
    intro hv
    rw [canonAux]
    have : prefCnt vals 1 = (vals.getD 0 false).toNat := by
      simpa [prefCnt_zero] using prefCnt_succ vals 0
    rw [this, hv]
    simp
  · -- s (n-2) (k-1) → ¬ vals[n-1]
    intro hs
    rw [canonAux] at hs
    have hs1 := of_decide_eq_true hs
    have hidx : vals.length - 2 + 1 = vals.length - 1 := by omega
    rw [hidx] at hs1
    have hs2 : k ≤ prefCnt vals (vals.length - 1) := by omega
    cases hv : vals.getD (vals.length - 1) false with
    | false => rfl
    | true =>
      exfalso
      have hstep : prefCnt vals (vals.length - 1 + 1) =
          prefCnt vals (vals.length - 1) + 1 := by
        rw [prefCnt_succ, hv]; rfl
      have hfull : prefCnt vals (vals.length - 1 + 1) ≤ countTrue vals :=
        prefCnt_le_countTrue _ _
      omega
  · -- s 0 j is false for 1 ≤ j < k
    intro j hj
    rw [canonAux]
    have := prefCnt_le vals 1
    simp only [Nat.zero_add, decide_eq_false_iff_not]
    omega
  · -- the propagation rows
    intro i hi
    refine ⟨⟨?_, ?_⟩, ?_⟩
    · intro hor
      rw [canonAux]
      rcases hor with hv | hs
      · have : prefCnt vals i + 1 ≤ prefCnt vals (i + 1) := by
          rw [prefCnt_succ, hv]; simp
        simp only [decide_eq_true_eq]
        have := prefCnt_mono vals (Nat.zero_le i)
        omega
      · rw [canonAux] at hs
        have hs2 := of_decide_eq_true hs
        have : i - 1 + 1 ≤ i + 1 := by omega
        have hmono := prefCnt_mono vals this
        simp only [decide_eq_true_eq]
        omega
    · intro j hj hor
      rw [canonAux]
      simp only [decide_eq_true_eq]
      rcases hor with ⟨hv, hs⟩ | hs
      · rw [canonAux] at hs
        have hs2 := of_decide_eq_true hs
        have hstep : prefCnt vals (i - 1 + 1) + 1 ≤ prefCnt vals (i + 1) := by
          have hi1 : i - 1 + 1 = i := by omega
          rw [hi1]
          rw [prefCnt_succ, hv]
          simp
        omega
      · rw [canonAux] at hs
        have hs2 := of_decide_eq_true hs
        have hmono := prefCnt_mono vals (show i - 1 + 1 ≤ i + 1 by omega)
        omega
    · intro hs
      rw [canonAux] at hs
      have hs2 := of_decide_eq_true hs
      have hi1 : i - 1 + 1 = i := by omega
      rw [hi1] at hs2
      cases hv : vals.getD i false with
      | false => rfl
      | true =>
        exfalso
        have hstep : prefCnt vals (i + 1) = prefCnt vals i + 1 := by
          rw [prefCnt_succ, hv]; rfl
        have hfull : prefCnt vals (i + 1) ≤ countTrue vals := prefCnt_le_countTrue _ _
        omega

/-- Under the canonical auxiliary assignment the sequential counter is exact. -/
theorem atMostKSeq_canon_iff (vals : List Bool) (k : Nat) :
    atMostKSeq vals k (canonAux vals) = true ↔ countTrue vals ≤ k :=
  ⟨atMostKSeq_sound, atMostKSeq_canon⟩

/-! ## The circle-method skeleton (`utils.py`, `generate_rb_and_flattened`) -/

/-- `rb[(p, w, s)]` of `generate_rb_and_flattened`: the team in role `s`
of the pair assigned to period `p`, week `w`. -/
def rb (N p w s : Nat) : Nat :=
  if s = 0 then
    if p = 0 then (if w % 2 = 0 then N - 1 else w) else (p + w) % (N - 1)
  else
    if p = 0 then (if w % 2 = 0 then w else N - 1) else (N - p + w - 1) % (N - 1)

/-- `matches[(m, s)]`: the flattened catalogue; match `m = w*(N/2) + p`
carries the pair of `(p, w)`. -/
def matchTeam (N m s : Nat) : Nat := rb N (m % (N / 2)) (m / (N / 2)) s

/-- The number of match ids, `(N-1) * (N//2)`. -/
def totalMatches (N : Nat) : Nat := (N - 1) * (N / 2)

theorem rb_pos_s0 {N p w : Nat} (hp : 0 < p) : rb N p w 0 = (p + w) % (N - 1) := by
  simp [rb, Nat.pos_iff_ne_zero.mp hp]

theorem rb_pos_s1 {N p w : Nat} (hp : 0 < p) : rb N p w 1 = (N - p + w - 1) % (N - 1) := by
  simp [rb, Nat.pos_iff_ne_zero.mp hp]

theorem rb_zero_s0 {N w : Nat} : rb N 0 w 0 = if w % 2 = 0 then N - 1 else w := by
  simp [rb]

theorem rb_zero_s1 {N w : Nat} : rb N 0 w 1 = if w % 2 = 0 then w else N - 1 := by
  simp [rb]

theorem matchOfSlot_lt {N p w : Nat} (hp : p < N / 2) (hw : w < N - 1) :
    w * (N / 2) + p < totalMatches N := by
  rw [totalMatches]
  calc w * (N / 2) + p < w * (N / 2) + N / 2 := by omega
    _ = (w + 1) * (N / 2) := by ring
    _ ≤ (N - 1) * (N / 2) := Nat.mul_le_mul_right _ (by omega)

theorem matchOfSlot_div {N p w : Nat} (h4 : 4 ≤ N) (hp : p < N / 2) :
    (w * (N / 2) + p) / (N / 2) = w := by
  rw [mul_comm, Nat.mul_add_div (by omega), Nat.div_eq_of_lt hp, Nat.add_zero]

theorem matchOfSlot_mod {N p w : Nat} (hp : p < N / 2) :
    (w * (N / 2) + p) % (N / 2) = p := by
  rw [mul_comm, Nat.mul_add_mod, Nat.mod_eq_of_lt hp]

/-- The flattening formula: the catalogue entry of `m = w*(N/2) + p` is the
skeleton pair of `(p, w)`. -/
theorem matchTeam_eq_rb {N p w : Nat} (h4 : 4 ≤ N) (hp : p < N / 2) (s : Nat) :
    matchTeam N (w * (N / 2) + p) s = rb N p w s := by
  rw [matchTeam, matchOfSlot_div h4 hp, matchOfSlot_mod hp]

theorem matchMod_lt {N m : Nat} (h4 : 4 ≤ N) : m % (N / 2) < N / 2 :=
  Nat.mod_lt _ (by omega)

theorem matchDiv_lt {N m : Nat} (hm : m < totalMatches N) :
    m / (N / 2) < N - 1 :=
  Nat.div_lt_of_lt_mul (by rw [totalMatches, mul_comm] at hm; exact hm)

theorem matchRecompose (N m : Nat) :
    (m / (N / 2)) * (N / 2) + m % (N / 2) = m := by
  rw [mul_comm]
  exact Nat.div_add_mod m (N / 2)

/-! ### Modular arithmetic facts about the skeleton -/

theorem rb_pos_s0_val {N p w : Nat} [NeZero (N - 1)] (hp : 0 < p) :
    rb N p w 0 = ((p : ZMod (N - 1)) + (w : ZMod (N - 1))).val := by
  rw [rb_pos_s0 hp, ← Nat.cast_add, ZMod.val_natCast]

theorem rb_pos_s1_val {N p w : Nat} [NeZero (N - 1)] (hp : 0 < p) (hpn : p ≤ N - 1) :
    rb N p w 1 = ((w : ZMod (N - 1)) - (p : ZMod (N - 1))).val := by
  have h1 : N - p + w - 1 = (N - 1 - p) + w := by omega
  have h2 : (((N - 1 - p) + w : Nat) : ZMod (N - 1)) =
      (w : ZMod (N - 1)) - (p : ZMod (N - 1)) := by
    rw [Nat.cast_add, Nat.cast_sub hpn, ZMod.natCast_self, zero_sub, neg_add_eq_sub]
  rw [rb_pos_s1 hp, h1, ← h2, ZMod.val_natCast]

theorem rb_pos_lt {N p w s : Nat} (h4 : 4 ≤ N) (hp : 0 < p) :
    rb N p w s < N - 1 := by
  by_cases hs : s = 0
  · rw [hs, rb_pos_s0 hp]; exact Nat.mod_lt _ (by omega)
  · have : rb N p w s = (N - p + w - 1) % (N - 1) := by
      simp [rb, Nat.pos_iff_ne_zero.mp hp, hs]
    rw [this]; exact Nat.mod_lt _ (by omega)

theorem val_eq_iff {N t : Nat} [NeZero (N - 1)] {x : ZMod (N - 1)}
    (ht : t < N - 1) : x.val = t ↔ x = (t : ZMod (N - 1)) := by
  constructor
  · intro h
    have := ZMod.natCast_rightInverse x
    rw [h] at this
    exact this.symm
  · intro h
    rw [h, ZMod.val_cast_of_lt ht]

theorem natCast_eq_zero_iff_dvd {N a : Nat} [NeZero (N - 1)] :
    ((a : ZMod (N - 1)) = 0) ↔ (N - 1) ∣ a :=
  CharP.cast_eq_zero_iff (ZMod (N - 1)) (N - 1) a

theorem two_mul_cancel {N : Nat} (h2 : N % 2 = 0) (h4 : 4 ≤ N)
    {x y : ZMod (N - 1)} (h : 2 * x = 2 * y) : x = y := by
  haveI : NeZero (N - 1) := ⟨by omega⟩
  have hcop : Nat.Coprime 2 (N - 1) :=
    (Nat.Prime.coprime_iff_not_dvd Nat.prime_two).mpr
      (by rintro ⟨c, hc⟩; omega)
  have hu : IsUnit (2 : ZMod (N - 1)) := by
    refine ⟨ZMod.unitOfCoprime 2 hcop, ?_⟩
    rw [ZMod.coe_unitOfCoprime]
    norm_cast
  exact hu.mul_left_cancel h

/-- The class of `N/2` modulo `N-1`, a multiplicative inverse of 2. -/
def halfInv (N : Nat) : ZMod (N - 1) := ((N / 2 : Nat) : ZMod (N - 1))

theorem two_mul_halfInv {N : Nat} (h2 : N % 2 = 0) (h4 : 4 ≤ N) :
    2 * halfInv N = 1 := by
  haveI : NeZero (N - 1) := ⟨by omega⟩
  have hcast : ((2 * (N / 2) : Nat) : ZMod (N - 1)) = 2 * halfInv N := by
    push_cast [halfInv]
    ring
  have hN : 2 * (N / 2) = (N - 1) + 1 := by omega
  rw [← hcast, hN, Nat.cast_add, ZMod.natCast_self, Nat.cast_one, zero_add]

/-- Exactly one period in `[1, N/2)` has class `x` or `-x`, for `x ≠ 0`. -/
theorem exists_unique_period {N : Nat} (h2 : N % 2 = 0) (h4 : 4 ≤ N)
    {x : ZMod (N - 1)} (hx : x ≠ 0) :
    ∃! p : Nat, (0 < p ∧ p < N / 2) ∧
      ((p : ZMod (N - 1)) = x ∨ (p : ZMod (N - 1)) = -x) := by
  haveI : NeZero (N - 1) := ⟨by omega⟩
  have hvlt : x.val < N - 1 := ZMod.val_lt x
  have hv0 : 0 < x.val := by
    rcases Nat.eq_zero_or_pos x.val with h0 | h0
    · exact absurd ((ZMod.val_eq_zero x).mp h0) hx
    · exact h0
  have hcastval : ((x.val : Nat) : ZMod (N - 1)) = x := ZMod.natCast_rightInverse x
  have huniq : ∀ q : Nat, (0 < q ∧ q < N / 2) →
      ((q : ZMod (N - 1)) = x ∨ (q : ZMod (N - 1)) = -x) →
      ∀ r : Nat, (0 < r ∧ r < N / 2) →
      ((r : ZMod (N - 1)) = x ∨ (r : ZMod (N - 1)) = -x) → q = r := by
    rintro q ⟨hq0, hq2⟩ hqx r ⟨hr0, hr2⟩ hrx
    have hqlt : q < N - 1 := by omega
    have hrlt : r < N - 1 := by omega
    rcases hqx with hq | hq <;> rcases hrx with hr | hr
    · have : (q : ZMod (N - 1)) = (r : ZMod (N - 1)) := by rw [hq, hr]
      have := congrArg ZMod.val this
      rwa [ZMod.val_cast_of_lt hqlt, ZMod.val_cast_of_lt hrlt] at this
    · exfalso
      have hsum : ((q + r : Nat) : ZMod (N - 1)) = 0 := by
        push_cast
        rw [hq, hr]
        ring
      have hdvd := natCast_eq_zero_iff_dvd.mp hsum
      have := Nat.eq_zero_of_dvd_of_lt hdvd (by omega)
      omega
    · exfalso
      have hsum : ((q + r : Nat) : ZMod (N - 1)) = 0 := by
        push_cast
        rw [hq, hr]
        ring
      have hdvd := natCast_eq_zero_iff_dvd.mp hsum
      have := Nat.eq_zero_of_dvd_of_lt hdvd (by omega)
      omega
    · have : (q : ZMod (N - 1)) = (r : ZMod (N - 1)) := by rw [hq, hr]
      have := congrArg ZMod.val this
      rwa [ZMod.val_cast_of_lt hqlt, ZMod.val_cast_of_lt hrlt] at this
  rcases Nat.lt_or_ge x.val (N / 2) with he | he
  · refine ⟨x.val, ⟨⟨hv0, he⟩, Or.inl hcastval⟩, ?_⟩
    intro q hq
    exact huniq q hq.1 hq.2 x.val ⟨hv0, he⟩ (Or.inl hcastval)
  · have hplt : N - 1 - x.val < N / 2 := by omega
    have hp0 : 0 < N - 1 - x.val := by omega
    have hcast : (((N - 1 - x.val : Nat)) : ZMod (N - 1)) = -x := by
      rw [Nat.cast_sub (by omega), ZMod.natCast_self, zero_sub, hcastval]
    refine ⟨N - 1 - x.val, ⟨⟨hp0, hplt⟩, Or.inr hcast⟩, ?_⟩
    intro q hq
    exact huniq q hq.1 hq.2 (N - 1 - x.val) ⟨hp0, hplt⟩ (Or.inr hcast)

theorem rb0_eq_iff {N p w t : Nat} [NeZero (N - 1)] (hp : 0 < p) (ht : t < N - 1) :
    rb N p w 0 = t ↔ (p : ZMod (N - 1)) + w = (t : ZMod (N - 1)) := by
  rw [rb_pos_s0_val hp, val_eq_iff ht]

theorem rb1_eq_iff {N p w t : Nat} [NeZero (N - 1)] (hp : 0 < p)
    (hpn : p ≤ N - 1) (ht : t < N - 1) :
    rb N p w 1 = t ↔ (w : ZMod (N - 1)) - p = (t : ZMod (N - 1)) := by
  rw [rb_pos_s1_val hp hpn, val_eq_iff ht]

theorem cast_pos_ne_zero {N q : Nat} [NeZero (N - 1)] (hq0 : 0 < q)
    (hq : q < N - 1) : (q : ZMod (N - 1)) ≠ 0 := by
  intro h
  have := Nat.eq_zero_of_dvd_of_lt (natCast_eq_zero_iff_dvd.mp h) hq
  omega

/-- In every week, every team is on exactly one period's skeleton pair. -/
theorem team_week_unique {N w t : Nat} (h2 : N % 2 = 0) (h4 : 4 ≤ N)
    (hw : w < N - 1) (ht : t < N) :
    ∃! p, p < N / 2 ∧ (rb N p w 0 = t ∨ rb N p w 1 = t) := by
  haveI : NeZero (N - 1) := ⟨by omega⟩
  by_cases htop : t = N - 1
  · refine ⟨0, ⟨by omega, ?_⟩, ?_⟩
    · by_cases hwp : w % 2 = 0
      · left; rw [rb_zero_s0, if_pos hwp, htop]
      · right; rw [rb_zero_s1, if_neg hwp, htop]
    · rintro q ⟨hq, hmem⟩
      rcases Nat.eq_zero_or_pos q with h0 | h0
      · exact h0
      exfalso
      rcases hmem with hm | hm
      · have := rb_pos_lt (w := w) (s := 0) h4 h0; omega
      · have := rb_pos_lt (w := w) (s := 1) h4 h0; omega
  have htl : t < N - 1 := by omega
  by_cases htw : t = w
  · refine ⟨0, ⟨by omega, ?_⟩, ?_⟩
    · by_cases hwp : w % 2 = 0
      · right; rw [rb_zero_s1, if_pos hwp, htw]
      · left; rw [rb_zero_s0, if_neg hwp, htw]
    · rintro q ⟨hq, hmem⟩
      rcases Nat.eq_zero_or_pos q with h0 | h0
      · exact h0
      exfalso
      have hqlt : q < N - 1 := by omega
      have hqne := cast_pos_ne_zero (N := N) h0 hqlt
      rcases hmem with hm | hm
      · rw [rb0_eq_iff h0 htl] at hm
        rw [htw] at hm
        exact hqne (by linear_combination hm)
      · rw [rb1_eq_iff h0 (by omega) htl] at hm
        rw [htw] at hm
        exact hqne (by linear_combination -hm)
  · -- t is a rotating team different from w: a unique positive period
    have hcast_ne : (t : ZMod (N - 1)) ≠ (w : ZMod (N - 1)) := by
      intro h
      have := congrArg ZMod.val h
      rw [ZMod.val_cast_of_lt htl, ZMod.val_cast_of_lt hw] at this
      exact htw this
    have hx : (t : ZMod (N - 1)) - w ≠ 0 := sub_ne_zero.mpr hcast_ne
    obtain ⟨p, ⟨⟨hp0, hpN⟩, hpor⟩, hpu⟩ := exists_unique_period h2 h4 hx
    have hmem_iff : ∀ q, 0 < q → q < N / 2 →
        ((rb N q w 0 = t ∨ rb N q w 1 = t) ↔
         ((q : ZMod (N - 1)) = (t : ZMod (N - 1)) - w ∨
          (q : ZMod (N - 1)) = -((t : ZMod (N - 1)) - w))) := by
      intro q hq0 hq2
      rw [rb0_eq_iff hq0 htl, rb1_eq_iff hq0 (by omega) htl]
      constructor
      · rintro (h | h)
        · left; linear_combination h
        · right; linear_combination -h
      · rintro (h | h)
        · left; linear_combination h
        · right; linear_combination -h
    refine ⟨p, ⟨hpN, (hmem_iff p hp0 hpN).mpr hpor⟩, ?_⟩
    rintro q ⟨hq, hmem⟩
    rcases Nat.eq_zero_or_pos q with h0 | h0
    · exfalso
      rw [h0] at hmem
      rcases hmem with hm | hm
      · rw [rb_zero_s0] at hm
        by_cases hwp : w % 2 = 0
        · rw [if_pos hwp] at hm; omega
        · rw [if_neg hwp] at hm; exact htw hm.symm
      · rw [rb_zero_s1] at hm
        by_cases hwp : w % 2 = 0
        · rw [if_pos hwp] at hm; exact htw hm.symm
        · rw [if_neg hwp] at hm; omega
    · exact hpu q ⟨⟨h0, hq⟩, (hmem_iff q h0 hq).mp hmem⟩

theorem pair_zero_iff {N w a b : Nat} :
    ((rb N 0 w 0 = a ∧ rb N 0 w 1 = b) ∨ (rb N 0 w 0 = b ∧ rb N 0 w 1 = a)) ↔
      ((a = N - 1 ∧ b = w) ∨ (b = N - 1 ∧ a = w)) := by
  by_cases hwp : w % 2 = 0
  · rw [rb_zero_s0, rb_zero_s1, if_pos hwp, if_pos hwp]
    constructor
    · rintro (⟨h1, h2⟩ | ⟨h1, h2⟩)
      · exact Or.inl ⟨h1.symm, h2.symm⟩
      · exact Or.inr ⟨h1.symm, h2.symm⟩
    · rintro (⟨h1, h2⟩ | ⟨h1, h2⟩)
      · exact Or.inl ⟨h1.symm, h2.symm⟩
      · exact Or.inr ⟨h1.symm, h2.symm⟩
  · rw [rb_zero_s0, rb_zero_s1, if_neg hwp, if_neg hwp]
    constructor
    · rintro (⟨h1, h2⟩ | ⟨h1, h2⟩)
      · exact Or.inr ⟨h2.symm, h1.symm⟩
      · exact Or.inl ⟨h2.symm, h1.symm⟩
    · rintro (⟨h1, h2⟩ | ⟨h1, h2⟩)
      · exact Or.inr ⟨h2.symm, h1.symm⟩
      · exact Or.inl ⟨h2.symm, h1.symm⟩

/-- Every unordered pair of distinct teams is the skeleton pair of exactly
one (period, week) slot. -/
theorem pair_week_period {N a b : Nat} (h2 : N % 2 = 0) (h4 : 4 ≤ N)
    (ha : a < N) (hb : b < N) (hab : a ≠ b) :
    ∃! q : Nat × Nat, (q.1 < N / 2 ∧ q.2 < N - 1) ∧
      ((rb N q.1 q.2 0 = a ∧ rb N q.1 q.2 1 = b) ∨
       (rb N q.1 q.2 0 = b ∧ rb N q.1 q.2 1 = a)) := by
  haveI : NeZero (N - 1) := ⟨by omega⟩
  by_cases hatop : a = N - 1
  · -- the pair is {N-1, b}: period 0, week b
    have hbl : b < N - 1 := by omega
    refine ⟨(0, b), ⟨⟨by omega, hbl⟩, ?_⟩, ?_⟩
    · exact pair_zero_iff.mpr (Or.inl ⟨hatop, rfl⟩)
    · rintro ⟨p, w⟩ ⟨⟨hpN, hwN⟩, hmem⟩
      dsimp only at hpN hwN hmem
      rcases Nat.eq_zero_or_pos p with h0 | h0
      · subst h0
        rcases pair_zero_iff.mp hmem with ⟨-, h⟩ | ⟨hb1, -⟩
        · simp [h]
        · omega
      · exfalso
        have h0lt := rb_pos_lt (N := N) (p := p) (w := w) (s := 0) h4 h0
        have h1lt := rb_pos_lt (N := N) (p := p) (w := w) (s := 1) h4 h0
        rcases hmem with ⟨hm, -⟩ | ⟨-, hm⟩ <;> omega
  by_cases hbtop : b = N - 1
  · have hal : a < N - 1 := by omega
    refine ⟨(0, a), ⟨⟨by omega, hal⟩, ?_⟩, ?_⟩
    · exact pair_zero_iff.mpr (Or.inr ⟨hbtop, rfl⟩)
    · rintro ⟨p, w⟩ ⟨⟨hpN, hwN⟩, hmem⟩
      dsimp only at hpN hwN hmem
      rcases Nat.eq_zero_or_pos p with h0 | h0
      · subst h0
        rcases pair_zero_iff.mp hmem with ⟨ha1, -⟩ | ⟨-, h⟩
        · omega
        · simp [h]
      · exfalso
        have h0lt := rb_pos_lt (N := N) (p := p) (w := w) (s := 0) h4 h0
        have h1lt := rb_pos_lt (N := N) (p := p) (w := w) (s := 1) h4 h0
        rcases hmem with ⟨-, hm⟩ | ⟨hm, -⟩ <;> omega
  · -- both rotating teams: solve 2w ≡ a+b, 2p ≡ ±(a-b) mod N-1
    have hal : a < N - 1 := by omega
    have hbl : b < N - 1 := by omega
    have h21 := two_mul_halfInv h2 h4
    set i2 := halfInv N with hi2
    have hcast_ne : (a : ZMod (N - 1)) ≠ (b : ZMod (N - 1)) := by
      intro h
      have := congrArg ZMod.val h
      rw [ZMod.val_cast_of_lt hal, ZMod.val_cast_of_lt hbl] at this
      exact hab this
    have hx : i2 * ((a : ZMod (N - 1)) - b) ≠ 0 := by
      intro h
      apply sub_ne_zero.mpr hcast_ne
      have h20 : (2 : ZMod (N - 1)) * (i2 * ((a : ZMod (N - 1)) - b)) = 0 := by
        rw [h, mul_zero]
      linear_combination h20 - ((a : ZMod (N - 1)) - b) * h21
    obtain ⟨p, ⟨⟨hp0, hpN⟩, hpor⟩, hpu⟩ := exists_unique_period h2 h4 hx
    set w := (i2 * ((a : ZMod (N - 1)) + b)).val with hw_def
    have hwN : w < N - 1 := ZMod.val_lt _
    have hw_cast : ((w : Nat) : ZMod (N - 1)) = i2 * ((a : ZMod (N - 1)) + b) :=
      ZMod.natCast_rightInverse _
    have hmem : (rb N p w 0 = a ∧ rb N p w 1 = b) ∨
        (rb N p w 0 = b ∧ rb N p w 1 = a) := by
      rcases hpor with hp | hp
      · left
        constructor
        · rw [rb0_eq_iff hp0 hal, hp, hw_cast]
          linear_combination (a : ZMod (N - 1)) * h21
        · rw [rb1_eq_iff hp0 (by omega) hbl, hp, hw_cast]
          linear_combination (b : ZMod (N - 1)) * h21
      · right
        constructor
        · rw [rb0_eq_iff hp0 hbl, hp, hw_cast]
          linear_combination (b : ZMod (N - 1)) * h21
        · rw [rb1_eq_iff hp0 (by omega) hal, hp, hw_cast]
          linear_combination (a : ZMod (N - 1)) * h21
    refine ⟨(p, w), ⟨⟨hpN, hwN⟩, hmem⟩, ?_⟩
    rintro ⟨q, v⟩ ⟨⟨hqN, hvN⟩, hqmem⟩
    dsimp only at hqN hvN hqmem
    rcases Nat.eq_zero_or_pos q with h0 | h0
    · exfalso
      subst h0
      rcases pair_zero_iff.mp hqmem with ⟨h, -⟩ | ⟨h, -⟩ <;> omega
    · have hveq : ((v : Nat) : ZMod (N - 1)) = i2 * ((a : ZMod (N - 1)) + b) ∧
          ((q : ZMod (N - 1)) = i2 * ((a : ZMod (N - 1)) - b) ∨
           (q : ZMod (N - 1)) = -(i2 * ((a : ZMod (N - 1)) - b))) := by
        rcases hqmem with ⟨hm0, hm1⟩ | ⟨hm0, hm1⟩
        · rw [rb0_eq_iff h0 hal] at hm0
          rw [rb1_eq_iff h0 (by omega) hbl] at hm1
          constructor
          · linear_combination i2 * hm0 + i2 * hm1 - (v : ZMod (N - 1)) * h21
          · left
            linear_combination i2 * hm0 - i2 * hm1 - (q : ZMod (N - 1)) * h21
        · rw [rb0_eq_iff h0 hbl] at hm0
          rw [rb1_eq_iff h0 (by omega) hal] at hm1
          constructor
          · linear_combination i2 * hm0 + i2 * hm1 - (v : ZMod (N - 1)) * h21
          · right
            linear_combination i2 * hm0 - i2 * hm1 - (q : ZMod (N - 1)) * h21
      obtain ⟨hv_eq, hq_or⟩ := hveq
      have hq_eq : q = p := hpu q ⟨⟨h0, hqN⟩, hq_or⟩
      have hv_eq2 : v = w := by
        have hv := congrArg ZMod.val hv_eq
        rw [ZMod.val_cast_of_lt hvN] at hv
        rw [hw_def]
        exact hv
      rw [hq_eq, hv_eq2]

theorem val_inj {N : Nat} [NeZero (N - 1)] {x y : ZMod (N - 1)}
    (h : x.val = y.val) : x = y := by
  have hx := ZMod.natCast_rightInverse x
  have hy := ZMod.natCast_rightInverse y
  rw [← hx, ← hy, h]

/-- The skeleton pair of a positive period has two distinct teams. -/
theorem rb_pos_ne {N p w : Nat} (h2 : N % 2 = 0) (h4 : 4 ≤ N)
    (hp : 0 < p) (hpN : p < N / 2) : rb N p w 0 ≠ rb N p w 1 := by
  haveI : NeZero (N - 1) := ⟨by omega⟩
  intro h
  rw [rb_pos_s0_val hp, rb_pos_s1_val hp (by omega)] at h
  have helem := val_inj h
  have h2p : ((2 * p : Nat) : ZMod (N - 1)) = 0 := by
    push_cast
    linear_combination helem
  have := Nat.eq_zero_of_dvd_of_lt (natCast_eq_zero_iff_dvd.mp h2p) (by omega)
  omega

/-- Each catalogue entry is an unordered pair of two distinct teams in
`[0, N)`. -/
theorem matchTeam_bounds {N m : Nat} (h2 : N % 2 = 0) (h4 : 4 ≤ N)
    (hm : m < totalMatches N) :
    matchTeam N m 0 < N ∧ matchTeam N m 1 < N ∧ matchTeam N m 0 ≠ matchTeam N m 1 := by
  haveI : NeZero (N - 1) := ⟨by omega⟩
  have hp2 : m % (N / 2) < N / 2 := matchMod_lt h4
  have hw2 : m / (N / 2) < N - 1 := matchDiv_lt hm
  have heq : ∀ s, matchTeam N m s = rb N (m % (N / 2)) (m / (N / 2)) s :=
    fun _ => rfl
  rcases Nat.eq_zero_or_pos (m % (N / 2)) with h0 | h0
  · rw [heq 0, heq 1, h0, rb_zero_s0, rb_zero_s1]
    by_cases hwp : (m / (N / 2)) % 2 = 0
    · rw [if_pos hwp, if_pos hwp]; omega
    · rw [if_neg hwp, if_neg hwp]; omega
  · rw [heq 0, heq 1]
    have hb0 := rb_pos_lt (N := N) (p := m % (N / 2)) (w := m / (N / 2)) (s := 0) h4 h0
    have hb1 := rb_pos_lt (N := N) (p := m % (N / 2)) (w := m / (N / 2)) (s := 1) h4 h0
    exact ⟨by omega, by omega, rb_pos_ne h2 h4 h0 hp2⟩

/-- The full content of claim C1 at a given `N`: the flattened catalogue is a
1-factorization with the stated index formulas. -/
def SkeletonCorrect (N : Nat) : Prop :=
  (∀ m, m < totalMatches N →
    matchTeam N m 0 < N ∧ matchTeam N m 1 < N ∧ matchTeam N m 0 ≠ matchTeam N m 1) ∧
  (∀ a b, a < N → b < N → a ≠ b →
    ∃! m, m < totalMatches N ∧
      ((matchTeam N m 0 = a ∧ matchTeam N m 1 = b) ∨
       (matchTeam N m 0 = b ∧ matchTeam N m 1 = a))) ∧
  totalMatches N = (N - 1) * N / 2 ∧
  (∀ p, p < N / 2 → ∀ w s, matchTeam N (w * (N / 2) + p) s = rb N p w s) ∧
  (∀ w, rb N 0 w 0 = (if w % 2 = 0 then N - 1 else w) ∧
        rb N 0 w 1 = (if w % 2 = 0 then w else N - 1)) ∧
  (∀ p, 0 < p → ∀ w, rb N p w 0 = (p + w) % (N - 1) ∧
        rb N p w 1 = (N - p + w - 1) % (N - 1))

/-- C1: for even `N ≥ 4` the skeleton generator produces `(N-1)·N/2` matches,
each an unordered pair of distinct teams below `N`, every pair of distinct
teams occurring in exactly one match, with the flat id and modular pairing
formulas of the source. -/
theorem skeleton_one_factorization (N : Nat) (h2 : N % 2 = 0) (h4 : 4 ≤ N) :
    SkeletonCorrect N := by
  haveI : NeZero (N - 1) := ⟨by omega⟩
  refine ⟨fun m hm => matchTeam_bounds h2 h4 hm, ?_, ?_, ?_, ?_, ?_⟩
  · -- every unordered pair of distinct teams occurs in exactly one match
    intro a b ha hb hab
    obtain ⟨⟨p, w⟩, ⟨⟨hpN, hwN⟩, hmem⟩, huniq⟩ := pair_week_period h2 h4 ha hb hab
    dsimp only at hpN hwN hmem
    refine ⟨w * (N / 2) + p, ⟨matchOfSlot_lt hpN hwN, ?_⟩, ?_⟩
    · rw [matchTeam_eq_rb h4 hpN, matchTeam_eq_rb h4 hpN]
      exact hmem
    · rintro m ⟨hm, hmmem⟩
      have hp2 : m % (N / 2) < N / 2 := matchMod_lt h4
      have hw2 : m / (N / 2) < N - 1 := matchDiv_lt hm
      have heq : ∀ s, matchTeam N m s = rb N (m % (N / 2)) (m / (N / 2)) s :=
        fun _ => rfl
      rw [heq 0, heq 1] at hmmem
      have := huniq (m % (N / 2), m / (N / 2)) ⟨⟨hp2, hw2⟩, hmmem⟩
      have hfst : m % (N / 2) = p := congrArg Prod.fst this
      have hsnd : m / (N / 2) = w := congrArg Prod.snd this
      rw [← hfst, ← hsnd]
      exact (matchRecompose N m).symm
  · -- count formula
    rw [totalMatches, Nat.mul_div_assoc _ (Nat.dvd_of_mod_eq_zero h2)]
  · intro p hp w s
    exact matchTeam_eq_rb h4 hp s
  · intro w
    exact ⟨rb_zero_s0, rb_zero_s1⟩
  · intro p hp w
    exact ⟨rb_pos_s0 hp, rb_pos_s1 hp⟩

/-- Witness for C1 at the concrete instance `N = 6`. -/
theorem skeleton_one_factorization_witness :
    6 % 2 = 0 ∧ 4 ≤ 6 ∧ SkeletonCorrect 6 :=
  ⟨rfl, by omega, skeleton_one_factorization 6 rfl (by omega)⟩

/-! ## Core constraint builder (`solve.py`, `add_core_constraints`, Z3 branch) -/

theorem countTrue_map (l : List ι) (f : ι → Bool) :
    countTrue (l.map f) = l.countP f := by
  induction l with
  | nil => rfl
  | cons x xs ih =>
    rw [List.map_cons, countTrue_cons, ih, List.countP_cons]
    cases hfx : f x <;> simp

theorem countP_eq_one_iff {l : List ι} (hl : l.Nodup) (f : ι → Bool) :
    l.countP f = 1 ↔ ∃! i, i ∈ l ∧ f i = true := by
  induction l with
  | nil => simp
  | cons x xs ih =>
    have hx : x ∉ xs := (List.nodup_cons.mp hl).1
    have hxs : xs.Nodup := (List.nodup_cons.mp hl).2
    rw [List.countP_cons]
    cases hfx : f x with
    | true =>
      rw [show (if (true : Bool) = true then 1 else 0) = 1 from rfl]
      constructor
      · intro h
        have h0 : xs.countP f = 0 := by omega
        rw [List.countP_eq_zero] at h0
        refine ⟨x, ⟨by simp, hfx⟩, ?_⟩
        rintro y ⟨hy, hfy⟩
        rcases List.mem_cons.mp hy with rfl | hy2
        · rfl
        · exact absurd hfy (h0 y hy2)
      · rintro ⟨i, ⟨hi, hfi⟩, hiu⟩
        have hix : i = x := by
          rcases List.mem_cons.mp hi with rfl | hi2
          · rfl
          · exact (hiu x ⟨by simp, hfx⟩).symm
        have h0 : xs.countP f = 0 := by
          rw [List.countP_eq_zero]
          intro y hy hfy
          have := hiu y ⟨List.mem_cons_of_mem _ hy, hfy⟩
          rw [this, hix] at hy
          exact hx hy
        omega
    | false =>
      rw [show (if (false : Bool) = true then 1 else 0) = 0 from rfl, Nat.add_zero]
      rw [ih hxs]
      constructor
      · rintro ⟨i, ⟨hi, hfi⟩, hiu⟩
        refine ⟨i, ⟨List.mem_cons_of_mem _ hi, hfi⟩, ?_⟩
        rintro y ⟨hy, hfy⟩
        rcases List.mem_cons.mp hy with rfl | hy2
        · rw [hfx] at hfy; exact absurd hfy (by simp)
        · exact hiu y ⟨hy2, hfy⟩
      · rintro ⟨i, ⟨hi, hfi⟩, hiu⟩
        have hix : i ∈ xs := by
          rcases List.mem_cons.mp hi with rfl | hi2
          · rw [hfx] at hfi; exact absurd hfi (by simp)
          · exact hi2
        exact ⟨i, ⟨hix, hfi⟩, fun y ⟨hy, hfy⟩ => hiu y ⟨List.mem_cons_of_mem _ hy, hfy⟩⟩

/-- The (period, week) index list, in the order `for p in P: for w in W`. -/
def slotPairs (N : Nat) : List (Nat × Nat) :=
  (List.range (N / 2)).flatMap fun p => (List.range (N - 1)).map fun w => (p, w)

theorem mem_slotPairs {N : Nat} {q : Nat × Nat} :
    q ∈ slotPairs N ↔ q.1 < N / 2 ∧ q.2 < N - 1 := by
  rw [slotPairs]
  simp only [List.mem_flatMap, List.mem_map, List.mem_range]
  constructor
  · rintro ⟨p, hp, w, hw, rfl⟩
    exact ⟨hp, hw⟩
  · rintro ⟨h1, h2⟩
    exact ⟨q.1, h1, q.2, h2, rfl⟩

theorem slotPairs_nodup (N : Nat) : (slotPairs N).Nodup := by
  rw [slotPairs, List.nodup_flatMap]
  constructor
  · intro p hp
    exact (List.nodup_range _).map fun a b h => congrArg Prod.snd h
  · refine List.Pairwise.imp ?_ (List.pairwise_lt_range (N / 2))
    intro p q hpq
    intro z hz1 hz2
    simp only [List.mem_map] at hz1 hz2
    obtain ⟨w1, -, rfl⟩ := hz1
    obtain ⟨w2, -, h⟩ := hz2
    have := congrArg Prod.fst h
    simp at this
    omega

/-- The one-hot slot variable list `matches_idx_vars[p, w]`. -/
def slotVals (midx : Nat → Nat → Nat → Bool) (N p w : Nat) : List Bool :=
  (List.range (totalMatches N)).map (midx p w)

/-- The all-different indicator list for match `m` (order `for p: for w`). -/
def matchVals (midx : Nat → Nat → Nat → Bool) (N m : Nat) : List Bool :=
  (List.range (N / 2)).flatMap fun p => (List.range (N - 1)).map fun w => midx p w m

/-- The `team_appears` list for `(period, team)`: slot variables, across all
weeks, of the matches of that week containing the team. -/
def teamAppearVals (N : Nat) (midx : Nat → Nat → Nat → Bool)
    (period team : Nat) : List Bool :=
  (List.range (N - 1)).flatMap fun w =>
    ((List.range' (w * (N / 2)) (N / 2)).filter fun m =>
      decide (matchTeam N m 0 = team ∨ matchTeam N m 1 = team)).map (midx period w)

/-- `add_core_constraints` (Z3 backend): the conjunction of all constraints
it adds, evaluated under an assignment `midx` of the slot variables and
`amt2s team period` of the `s_{amt2_t{team}_p{period}}_{i}_{j}` auxiliary
sequential-counter variables. -/
def coreSat (N : Nat) (midx : Nat → Nat → Nat → Bool)
    (amt2s : Nat → Nat → Nat → Nat → Bool) : Bool :=
  ((List.range (N / 2)).all fun p => (List.range (N - 1)).all fun w =>
    exactlyOneHolds (slotVals midx N p w)) &&
  midx 0 0 0 &&
  ((List.range (totalMatches N)).all fun m =>
    exactlyOneHolds (matchVals midx N m)) &&
  ((List.range (N - 1)).all fun w => (List.range (N / 2)).all fun p =>
    (List.range (totalMatches N)).all fun m =>
      if w * (N / 2) ≤ m ∧ m < (w + 1) * (N / 2) then true else !(midx p w m)) &&
  ((List.range (N / 2)).all fun period => (List.range N).all fun team =>
    if 0 < (teamAppearVals N midx period team).length then
      atMostKHolds (teamAppearVals N midx period team) 2 (amt2s team period)
    else true)

theorem atMostKHolds_sound {vals : List Bool} {k : Nat} {s : Nat → Nat → Bool}
    (h : atMostKHolds vals k s = true) : countTrue vals ≤ k := by
  rw [atMostKHolds, atMostKAdded] at h
  by_cases hlk : vals.length ≤ k
  · exact (countTrue_le_length vals).trans hlk
  · rw [if_neg hlk] at h
    simp only [List.all_cons, List.all_nil, Bool.and_true] at h
    exact atMostKSeq_sound h

theorem countP_le_countTrue_flatMap (ws : List Nat) (F : Nat → List Bool)
    (pred : Nat → Bool) (h : ∀ w ∈ ws, pred w = true → 0 < countTrue (F w)) :
    ws.countP pred ≤ countTrue (ws.flatMap F) := by
  induction ws with
  | nil => simp
  | cons w rest ih =>
    rw [List.countP_cons, List.flatMap_cons, countTrue_append]
    have hrest := ih fun u hu => h u (List.mem_cons_of_mem _ hu)
    cases hw : pred w with
    | false =>
      rw [show (if (false : Bool) = true then 1 else 0) = 0 from rfl]
      omega
    | true =>
      have := h w (by simp) hw
      rw [show (if (true : Bool) = true then 1 else 0) = 1 from rfl]
      omega

theorem matchVals_eq (midx : Nat → Nat → Nat → Bool) (N m : Nat) :
    matchVals midx N m = (slotPairs N).map fun q => midx q.1 q.2 m := by
  rw [matchVals, slotPairs, List.map_flatMap]
  congr 1
  funext p
  rw [List.map_map]
  rfl

theorem coreSat_parts {N : Nat} {midx : Nat → Nat → Nat → Bool}
    {amt2s : Nat → Nat → Nat → Nat → Bool} (h : coreSat N midx amt2s = true) :
    (∀ p, p < N / 2 → ∀ w, w < N - 1 →
      exactlyOneHolds (slotVals midx N p w) = true) ∧
    midx 0 0 0 = true ∧
    (∀ m, m < totalMatches N → exactlyOneHolds (matchVals midx N m) = true) ∧
    (∀ w, w < N - 1 → ∀ p, p < N / 2 → ∀ m, m < totalMatches N →
      ¬(w * (N / 2) ≤ m ∧ m < (w + 1) * (N / 2)) → midx p w m = false) ∧
    (∀ period, period < N / 2 → ∀ team, team < N →
      countTrue (teamAppearVals N midx period team) ≤ 2) := by
  rw [coreSat] at h
  simp only [Bool.and_eq_true, List.all_eq_true, List.mem_range] at h
  obtain ⟨⟨⟨⟨h1, h2⟩, h3⟩, h4⟩, h5⟩ := h
  refine ⟨fun p hp w hw => h1 p hp w hw, h2, fun m hm => h3 m hm, ?_, ?_⟩
  · intro w hw p hp m hm hcond
    have := h4 w hw p hp m hm
    rw [if_neg hcond] at this
    simpa using this
  · intro period hper team hteam
    have := h5 period hper team hteam
    by_cases hlen : 0 < (teamAppearVals N midx period team).length
    · rw [if_pos hlen] at this
      exact atMostKHolds_sound this
    · have hnil : teamAppearVals N midx period team = [] :=
        List.eq_nil_of_length_eq_zero (by omega)
      rw [hnil, countTrue_nil]
      omega

/-- The full content of claim C2 at a given `N` and slot assignment. -/
def CoreSatCorrect (N : Nat) (midx : Nat → Nat → Nat → Bool) : Prop :=
  (∀ p, p < N / 2 → ∀ w, w < N - 1 →
    (∃! m, m < totalMatches N ∧ midx p w m = true) ∧
    (∀ m, m < totalMatches N → midx p w m = true →
      w * (N / 2) ≤ m ∧ m < (w + 1) * (N / 2))) ∧
  (∀ m, m < totalMatches N →
    ∃! q : Nat × Nat, (q.1 < N / 2 ∧ q.2 < N - 1) ∧ midx q.1 q.2 m = true) ∧
  midx 0 0 0 = true ∧
  (∀ t, t < N → ∀ w, w < N - 1 →
    ∃! p, p < N / 2 ∧ ∃ m, m < totalMatches N ∧ midx p w m = true ∧
      (matchTeam N m 0 = t ∨ matchTeam N m 1 = t)) ∧
  (∀ t, t < N → ∀ period, period < N / 2 →
    ((List.range (N - 1)).countP fun w =>
      decide (∃ m, m < totalMatches N ∧ midx period w m = true ∧
        (matchTeam N m 0 = t ∨ matchTeam N m 1 = t))) ≤ 2)

/-- C2: every assignment satisfying `add_core_constraints` selects exactly
one match per (period, week) slot inside that week's range, uses every match
id in exactly one slot, forces slot (0,0) to match 0, gives every team
exactly one match per week, and lets no team appear more than twice in a
period across the weeks. -/
theorem core_constraints_correct (N : Nat) (midx : Nat → Nat → Nat → Bool)
    (amt2s : Nat → Nat → Nat → Nat → Bool) (h2 : N % 2 = 0) (h4 : 4 ≤ N)
    (hsat : coreSat N midx amt2s = true) : CoreSatCorrect N midx := by
  obtain ⟨g1, g2, g3, g4, g5⟩ := coreSat_parts hsat
  have htot_pos : 0 < totalMatches N := by
    rw [totalMatches]
    exact Nat.mul_pos (by omega) (by omega)
  -- each slot selects exactly one match, inside its week's range
  have hslot : ∀ p, p < N / 2 → ∀ w, w < N - 1 →
      (∃! m, m < totalMatches N ∧ midx p w m = true) ∧
      (∀ m, m < totalMatches N → midx p w m = true →
        w * (N / 2) ≤ m ∧ m < (w + 1) * (N / 2)) := by
    intro p hp w hw
    have hne : slotVals midx N p w ≠ [] := by
      rw [slotVals]
      intro hemp
      rw [List.map_eq_nil_iff, List.range_eq_nil] at hemp
      omega
    have hcount := (exactlyOneHolds_iff hne).mp (g1 p hp w hw)
    rw [slotVals, countTrue_map, countP_eq_one_iff (List.nodup_range _)] at hcount
    constructor
    · obtain ⟨m, ⟨hm_mem, hm⟩, hmu⟩ := hcount
      exact ⟨m, ⟨List.mem_range.mp hm_mem, hm⟩,
        fun y hy => hmu y ⟨List.mem_range.mpr hy.1, hy.2⟩⟩
    · intro m hm htrue
      by_contra hcond
      rw [g4 w hw p hp m hm hcond] at htrue
      exact Bool.false_ne_true htrue
  -- every match id is selected by exactly one slot
  have hbij : ∀ m, m < totalMatches N →
      ∃! q : Nat × Nat, (q.1 < N / 2 ∧ q.2 < N - 1) ∧ midx q.1 q.2 m = true := by
    intro m hm
    have hmem00 : ((0 : Nat), (0 : Nat)) ∈ slotPairs N :=
      mem_slotPairs.mpr ⟨by omega, by omega⟩
    have hne : matchVals midx N m ≠ [] := by
      rw [matchVals_eq]
      exact List.ne_nil_of_mem (List.mem_map_of_mem _ hmem00)
    have hcount := (exactlyOneHolds_iff hne).mp (g3 m hm)
    rw [matchVals_eq, countTrue_map, countP_eq_one_iff (slotPairs_nodup N)] at hcount
    obtain ⟨q, ⟨hq_mem, hq⟩, hq_u⟩ := hcount
    exact ⟨q, ⟨mem_slotPairs.mp hq_mem, hq⟩,
      fun y hy => hq_u y ⟨mem_slotPairs.mpr hy.1, hy.2⟩⟩
  refine ⟨hslot, hbij, g2, ?_, ?_⟩
  · -- every team appears in exactly one period of each week
    intro t ht w hw
    obtain ⟨pt, ⟨hptN, hpt_mem⟩, hpt_u⟩ := team_week_unique h2 h4 hw ht
    have hmt_lt : w * (N / 2) + pt < totalMatches N := matchOfSlot_lt hptN hw
    obtain ⟨⟨ps, ws⟩, ⟨⟨hpsN, hwsN⟩, hps_sel⟩, hps_u⟩ := hbij _ hmt_lt
    dsimp only at hpsN hwsN hps_sel
    have hws : ws = w := by
      have hrange := (hslot ps hpsN ws hwsN).2 _ hmt_lt hps_sel
      have hdiv1 : (w * (N / 2) + pt) / (N / 2) = w := matchOfSlot_div h4 hptN
      have hdecomp : w * (N / 2) + pt =
          ws * (N / 2) + (w * (N / 2) + pt - ws * (N / 2)) := by omega
      have hr : w * (N / 2) + pt - ws * (N / 2) < N / 2 := by
        have hmul : (ws + 1) * (N / 2) = ws * (N / 2) + N / 2 := by ring
        omega
      have hdiv2 : (w * (N / 2) + pt) / (N / 2) = ws := by
        rw [hdecomp]
        exact matchOfSlot_div h4 hr
      omega
    rw [hws] at hps_sel hps_u
    refine ⟨ps, ⟨hpsN, w * (N / 2) + pt, hmt_lt, hps_sel, ?_⟩, ?_⟩
    · rw [matchTeam_eq_rb h4 hptN, matchTeam_eq_rb h4 hptN]
      exact hpt_mem
    · rintro q ⟨hqN, m2, hm2_lt, hm2_sel, hm2_team⟩
      have hrange := (hslot q hqN w hw).2 _ hm2_lt hm2_sel
      have hmul : (w + 1) * (N / 2) = w * (N / 2) + N / 2 := by ring
      have hr2 : m2 - w * (N / 2) < N / 2 := by omega
      have hdecomp2 : m2 = w * (N / 2) + (m2 - w * (N / 2)) := by omega
      have hteam2 : rb N (m2 - w * (N / 2)) w 0 = t ∨ rb N (m2 - w * (N / 2)) w 1 = t := by
        rcases hm2_team with hmterm | hmter
        · left
          rw [hdecomp2, matchTeam_eq_rb h4 hr2] at hmterm
          exact hmterm
        · right
          rw [hdecomp2, matchTeam_eq_rb h4 hr2] at hmter
          exact hmter
      have hreq : m2 - w * (N / 2) = pt := hpt_u _ ⟨hr2, hteam2⟩
      have hm2_eq : m2 = w * (N / 2) + pt := by omega
      have := hps_u (q, w) ⟨⟨hqN, hw⟩, by rw [← hm2_eq]; exact hm2_sel⟩
      exact congrArg Prod.fst this
  · -- no team appears more than twice in a period
    intro t ht period hper
    refine le_trans ?_ (g5 period hper t ht)
    rw [teamAppearVals]
    apply countP_le_countTrue_flatMap
    intro w hw hpred
    rw [decide_eq_true_eq] at hpred
    obtain ⟨m, hm_lt, hm_sel, hm_team⟩ := hpred
    have hwN : w < N - 1 := List.mem_range.mp hw
    have hrange : w * (N / 2) ≤ m ∧ m < (w + 1) * (N / 2) := by
      by_contra hcond
      rw [g4 w hwN period hper m hm_lt hcond] at hm_sel
      exact Bool.false_ne_true hm_sel
    have hmul : (w + 1) * (N / 2) = w * (N / 2) + N / 2 := by ring
    rw [countTrue_pos]
    refine ⟨midx period w m, ?_, hm_sel⟩
    apply List.mem_map_of_mem
    rw [List.mem_filter, List.mem_range'_1]
    exact ⟨⟨hrange.1, by omega⟩, by rw [decide_eq_true_eq]; exact hm_team⟩

/-! ### A concrete satisfying schedule for N = 6 -/

/-- A concrete N = 6 schedule: the match id selected at (period, week). -/
def sched6 (p w : Nat) : Nat :=
  if p = 0 then
    if w = 0 then 0 else if w = 1 then 3 else if w = 2 then 7
    else if w = 3 then 10 else 13
  else if p = 1 then
    if w = 0 then 1 else if w = 1 then 4 else if w = 2 then 8
    else if w = 3 then 9 else 14
  else
    if w = 0 then 2 else if w = 1 then 5 else if w = 2 then 6
    else if w = 3 then 11 else 12

/-- The one-hot slot assignment of `sched6`. -/
def midx6 (p w m : Nat) : Bool := decide (m = sched6 p w)

/-- Canonical sequential-counter auxiliaries for the per-period caps. -/
def amt2s6 : Nat → Nat → Nat → Nat → Bool :=
  fun team period => canonAux (teamAppearVals 6 midx6 period team)

/-- Witness for C2 at `N = 6` with the concrete schedule `sched6`. -/
theorem core_constraints_correct_witness :
    6 % 2 = 0 ∧ 4 ≤ 6 ∧ coreSat 6 midx6 amt2s6 = true ∧ CoreSatCorrect 6 midx6 := by
  have hsat : coreSat 6 midx6 amt2s6 = true := by decide
  exact ⟨rfl, by omega, hsat,
    core_constraints_correct 6 midx6 amt2s6 rfl (by omega) hsat⟩

/-! ## Balance and optimization layer (`solve.py`, `optimize`, Z3 path) -/

/-- An assignment of every variable family created by `optimize` on the Z3
backend: slot one-hots, cap auxiliaries, orientations, per-team one-hot
home/away counts, home/away indicator auxiliaries, one-hot differences, and
the sequential-counter auxiliaries inside `encode_exact_count` (`at_least`
and `at_most` rows for the home and the away side). -/
structure OptAssign where
  midx : Nat → Nat → Nat → Bool
  amt2s : Nat → Nat → Nat → Nat → Bool
  homeFirst : Nat → Nat → Bool
  homeCount : Nat → Nat → Bool
  awayCount : Nat → Nat → Bool
  homeInd : Nat → Nat → Nat → Nat → Bool
  awayInd : Nat → Nat → Nat → Nat → Bool
  diff : Nat → Nat → Bool
  hcAux : Nat → Nat → Nat → Nat → Bool
  hcAux2 : Nat → Nat → Nat → Nat → Bool
  acAux : Nat → Nat → Nat → Nat → Bool
  acAux2 : Nat → Nat → Nat → Nat → Bool

/-- The list of one-hot variables of a bounded counter (`encode_integer_onehot`
with `max_val = N - 1`). -/
def countVarList (c : Nat → Bool) (N : Nat) : List Bool := (List.range N).map c

/-- The exactly-one constraints on all home/away count vectors
(the loop at the start of the balance section of `optimize`). -/
def countEoHold (N : Nat) (A : OptAssign) : Bool :=
  (List.range N).all fun t =>
    exactlyOneHolds (countVarList (A.homeCount t) N) &&
    exactlyOneHolds (countVarList (A.awayCount t) N)

/-- The indicator-defining constraints of the linking loop body for one team
(Z3 branch): each auxiliary equals the stated conjunction. -/
def linkConstraintsHold (N : Nat) (A : OptAssign) (t : Nat) : Bool :=
  (List.range (N / 2)).all fun p => (List.range (N - 1)).all fun w =>
    (List.range' (w * (N / 2)) (N / 2)).all fun m =>
      if matchTeam N m 0 = t then
        (A.homeInd t p w m == (A.midx p w m && A.homeFirst p w)) &&
        (A.awayInd t p w m == (A.midx p w m && !A.homeFirst p w))
      else if matchTeam N m 1 = t then
        (A.homeInd t p w m == (A.midx p w m && !A.homeFirst p w)) &&
        (A.awayInd t p w m == (A.midx p w m && A.homeFirst p w))
      else true

/-- The `team_home_indicators` list for a team, in creation order. -/
def teamHomeIndsF (N : Nat) (hInd : Nat → Nat → Nat → Nat → Bool) (t : Nat) :
    List Bool :=
  (List.range (N / 2)).flatMap fun p => (List.range (N - 1)).flatMap fun w =>
    ((List.range' (w * (N / 2)) (N / 2)).filter fun m =>
      decide (matchTeam N m 0 = t) || decide (matchTeam N m 1 = t)).map (hInd t p w)

def teamHomeInds (N : Nat) (A : OptAssign) (t : Nat) : List Bool :=
  teamHomeIndsF N A.homeInd t

def teamAwayInds (N : Nat) (A : OptAssign) (t : Nat) : List Bool :=
  teamHomeIndsF N A.awayInd t

/-- `encode_exact_count` (Z3 branch): truth of its constraints under an
assignment; `sal k` and `sam k` are the auxiliary rows of the `at_least` and
`at_most` sequential counters built for value `k`. -/
def encodeExactCountHolds (inds : List Bool) (cnt : Nat → Bool) (maxCount : Nat)
    (sal sam : Nat → Nat → Nat → Bool) : Bool :=
  (List.range (maxCount + 1)).all fun k =>
    if inds.length < k then !(cnt k)
    else if k = 0 then
      impB (cnt 0) (inds.all fun b => !b) &&
      (if 0 < inds.length then impB (inds.all fun b => !b) (cnt 0) else true)
    else if k = inds.length then
      impB (cnt k) (inds.all fun b => b) && impB (inds.all fun b => b) (cnt k)
    else
      impB (cnt k) (atMostKSeq (inds.map fun b => !b) (inds.length - k) (sal k) &&
                    atMostKSeq inds k (sam k)) &&
      impB (atMostKSeq (inds.map fun b => !b) (inds.length - k) (sal k) &&
            atMostKSeq inds k (sam k)) (cnt k)

/-- The two `encode_exact_count` calls of the linking loop body for one team. -/
def exactCountHold (N : Nat) (A : OptAssign) (t : Nat) : Bool :=
  encodeExactCountHolds (teamHomeInds N A t) (A.homeCount t) (N - 1)
    (A.hcAux t) (A.hcAux2 t) &&
  encodeExactCountHolds (teamAwayInds N A t) (A.awayCount t) (N - 1)
    (A.acAux t) (A.acAux2 t)

/-- The `cases` list of the absolute-difference channeling for team `t` and
candidate difference `d` (Z3 branch), in enumeration order. -/
def diffCases (A : OptAssign) (N t d : Nat) : List Bool :=
  (List.range N).flatMap fun h =>
    ((List.range N).filter fun a => decide (max h a - min h a = d)).map fun a =>
      A.homeCount t h && A.awayCount t a

/-- The absolute-difference block of `optimize` (Z3 branch): one-hot diffs
with the case-enumeration biconditional. -/
def diffHold (N : Nat) (A : OptAssign) : Bool :=
  (List.range N).all fun t =>
    exactlyOneHolds (countVarList (A.diff t) N) &&
    ((List.range N).all fun d =>
      if (diffCases A N t d).isEmpty then !(A.diff t d)
      else impB (A.diff t d) ((diffCases A N t d).any fun b => b) &&
           impB ((diffCases A N t d).any fun b => b) (A.diff t d))

/-- `find_combinations` of `constrain_total_imbalance` (Z3 branch): all
per-team difference value tuples, each value below `N`, summing to the
target. -/
def findCombos (N : Nat) : Nat → Nat → List (List Nat)
  | 0, r => if r = 0 then [[]] else []
  | left + 1, r =>
    (List.range (min N (r + 1))).flatMap fun d =>
      (findCombos N left (r - d)).map fun rest => d :: rest

/-- The disjunction `constrain_total_imbalance` pushes on the Z3 backend,
evaluated under an assignment `dvar` of the diff variables (an added `False`
when no combination exists). -/
def totalImbalanceHolds (N target : Nat) (dvar : Nat → Nat → Bool) : Bool :=
  let combos := findCombos N N target
  if combos.isEmpty then false
  else combos.any fun combo => (List.range N).all fun t => dvar t (combo.getD t 0)

/-- All constraints on the Z3 solver at a `solver.check()` of `optimize`'s
linear search with the given target. The imbalance computation and the
search sit inside the body of the per-team linking loop, and that body
returns before a second iteration can start, so only the first team of `T`
is linked and channeled. -/
def optimizePreCheck (N : Nat) (A : OptAssign) (target : Nat) : Bool :=
  coreSat N A.midx A.amt2s &&
  countEoHold N A &&
  (match List.range N with
   | [] => true
   | t :: _ => linkConstraintsHold N A t && exactCountHold N A t) &&
  diffHold N A &&
  totalImbalanceHolds N target A.diff

/-! ### Solution extraction (`utils.py`, `extract_solution`) -/

/-- The selected match of a slot: the first true one-hot variable (the scan
with `break` in `extract_solution`). -/
def extractSel (midx : Nat → Nat → Nat → Bool) (N p w : Nat) : Option Nat :=
  (List.range (totalMatches N)).find? (midx p w)

/-- The value of a one-hot counter as read by `extract_solution`: the first
`k < N` whose variable is true. -/
def extractCount (c : Nat → Bool) (N : Nat) : Option Nat :=
  (List.range N).find? c

/-- Re-tally of a team's home appearances from the extracted schedule: for
each slot, resolve the selected match id through the catalogue and apply
the slot's orientation (home is the first-listed team iff the orientation
boolean is true). -/
def tallyHome (A : OptAssign) (N t : Nat) : Nat :=
  countTrue ((List.range (N / 2)).flatMap fun p =>
    (List.range (N - 1)).map fun w =>
      match extractSel A.midx N p w with
      | some m => decide (matchTeam N m (if A.homeFirst p w then 0 else 1) = t)
      | none => false)

/-! ### A model accepted by the first check of `optimize` at N = 6 -/

/-- Orientations: first-listed team is home everywhere except slot (0,0). -/
def homeFirst6 (p w : Nat) : Bool := !(decide (p = 0 ∧ w = 0))

/-- One-hot home counts: 3 for team 0, (an unconstrained) 1 for the others. -/
def homeCount6 (t k : Nat) : Bool := decide (k = if t = 0 then 3 else 1)

/-- One-hot away counts: 2 for team 0, 0 for the others. -/
def awayCount6 (t k : Nat) : Bool := decide (k = if t = 0 then 2 else 0)

/-- One-hot differences: every team has difference 1 (total 6). -/
def diff6 (_t k : Nat) : Bool := decide (k = 1)

/-- Home indicators agreeing with the linking constraints for every team. -/
def homeInd6 (t p w m : Nat) : Bool :=
  midx6 p w m && (if matchTeam 6 m 0 = t then homeFirst6 p w else !homeFirst6 p w)

/-- Away indicators agreeing with the linking constraints for every team. -/
def awayInd6 (t p w m : Nat) : Bool :=
  midx6 p w m && (if matchTeam 6 m 0 = t then !homeFirst6 p w else homeFirst6 p w)

/-- The full assignment: canonical prefix-count auxiliaries everywhere. -/
def optW : OptAssign :=
  ⟨midx6, amt2s6, homeFirst6, homeCount6, awayCount6, homeInd6, awayInd6, diff6,
   fun t _ => canonAux ((teamHomeIndsF 6 homeInd6 t).map fun b => !b),
   fun t _ => canonAux (teamHomeIndsF 6 homeInd6 t),
   fun t _ => canonAux ((teamHomeIndsF 6 awayInd6 t).map fun b => !b),
   fun t _ => canonAux (teamHomeIndsF 6 awayInd6 t)⟩

set_option maxRecDepth 8000 in
/-- C3 (code bug): at `N = 6` the constraints asserted before `optimize`'s
first solver invocation (target 6) are satisfied by `optW`, although the
extracted home and away counts of team 1 are 1 and 0 with `1 + 0 ≠ N - 1`:
because the imbalance computation and the search are nested inside the
per-team linking loop, the count channeling is asserted for team 0 only, so
a solution accepted by `optimize` need not satisfy
`home_count[t] + away_count[t] = N - 1` for `t ≥ 1`. -/
theorem optimize_channels_only_first_team :
    optimizePreCheck 6 optW 6 = true ∧
    extractCount (optW.homeCount 1) 6 = some 1 ∧
    extractCount (optW.awayCount 1) 6 = some 0 ∧
    1 + 0 ≠ 6 - 1 := by
  exact ⟨by decide, by decide, by decide, by omega⟩

set_option maxRecDepth 8000 in
/-- C7 (code bug): the model `optW` is accepted by `optimize`'s first check
at `N = 6`, `extract_solution` reports home count 1 for team 1 (read from
the unchanneled count variables), but re-tallying team 1's home appearances
from the extracted schedule and orientations gives 3: the round trip fails
for teams other than team 0. -/
theorem optimize_extract_not_round_trip :
    optimizePreCheck 6 optW 6 = true ∧
    extractCount (optW.homeCount 1) 6 = some 1 ∧
    tallyHome optW 6 1 = 3 ∧ (3 : Nat) ≠ 1 := by
  exact ⟨by decide, by decide, by decide, by omega⟩

/-! ## The linear search of `optimize` (Z3 path) -/

/-- `range(N, N*(N-1) + 1)`: the candidate imbalance targets, in order. -/
def searchTargets (N : Nat) : List Nat := List.range' N (N * (N - 1) + 1 - N)

/-- The search loop: push, assert the target, check, return on the first
success, pop and continue otherwise — abstracted over the outcome `sat` of
checking the base constraints plus one target (push/pop on the Z3 backend
restore the base set exactly). -/
def linearSearch (sat : Nat → Bool) : List Nat → Option Nat
  | [] => none
  | t :: rest => if sat t then some t else linearSearch sat rest

theorem linearSearch_split {sat : Nat → Bool} :
    ∀ {l : List Nat} {r : Nat}, linearSearch sat l = some r →
      sat r = true ∧ ∃ l₁ l₂, l = l₁ ++ r :: l₂ ∧ ∀ u ∈ l₁, sat u = false := by
  intro l
  induction l with
  | nil => intro r h; simp [linearSearch] at h
  | cons t rest ih =>
    intro r h
    rw [linearSearch] at h
    cases hsat : sat t with
    | true =>
      rw [if_pos hsat] at h
      obtain rfl : t = r := by injection h
      exact ⟨hsat, [], rest, rfl, by simp⟩
    | false =>
      rw [if_neg (by simp [hsat])] at h
      obtain ⟨h1, l₁, l₂, rfl, h2⟩ := ih h
      refine ⟨h1, t :: l₁, l₂, rfl, ?_⟩
      intro u hu
      rcases List.mem_cons.mp hu with rfl | hu2
      · exact hsat
      · exact h2 u hu2

theorem linearSearch_none {sat : Nat → Bool} :
    ∀ {l : List Nat}, (∀ u ∈ l, sat u = false) → linearSearch sat l = none := by
  intro l
  induction l with
  | nil => intro; rfl
  | cons t rest ih =>
    intro h
    rw [linearSearch, if_neg (by simp [h t (by simp)])]
    exact ih fun u hu => h u (List.mem_cons_of_mem _ hu)

theorem mem_searchTargets {N u : Nat} :
    u ∈ searchTargets N ↔ N ≤ u ∧ u ≤ N * (N - 1) := by
  rw [searchTargets, List.mem_range'_1]
  have hNle : N ≤ N * (N - 1) + 1 := by
    rcases Nat.lt_or_ge N 2 with h | h
    · have : N = 0 ∨ N = 1 := by omega
      rcases this with rfl | rfl <;> simp
    · have := Nat.mul_le_mul_left N (show 1 ≤ N - 1 by omega)
      omega
  omega

theorem mem_findCombos {N : Nat} : ∀ {left r : Nat} {l : List Nat},
    l ∈ findCombos N left r ↔
      l.length = left ∧ (∀ x ∈ l, x < N) ∧ l.sum = r := by
  intro left
  induction left with
  | zero =>
    intro r l
    rw [findCombos]
    by_cases hr : r = 0
    · subst hr
      rw [if_pos rfl]
      constructor
      · intro hmem
        have hl : l = [] := by simpa using hmem
        subst hl
        simp
      · rintro ⟨hlen, -, -⟩
        have hl : l = [] := List.eq_nil_of_length_eq_zero hlen
        subst hl
        simp
    · rw [if_neg hr]
      simp only [List.not_mem_nil, false_iff]
      rintro ⟨hlen, -, hsum⟩
      rw [List.eq_nil_of_length_eq_zero hlen] at hsum
      exact hr (by simpa using hsum.symm)
  | succ left ih =>
    intro r l
    rw [findCombos]
    simp only [List.mem_flatMap, List.mem_map, List.mem_range]
    constructor
    · rintro ⟨d, hd, rest, hrest, rfl⟩
      obtain ⟨hlen, hbound, hsum⟩ := ih.mp hrest
      have hdr : d ≤ r := by omega
      refine ⟨by simp [hlen], ?_, by simp [hsum]; omega⟩
      intro x hx
      rcases List.mem_cons.mp hx with rfl | hx2
      · omega
      · exact hbound x hx2
    · rintro ⟨hlen, hbound, hsum⟩
      cases l with
      | nil => simp at hlen
      | cons d rest =>
        have hd_lt : d < N := hbound d (by simp)
        have hsum2 : d + rest.sum = r := by simpa using hsum
        refine ⟨d, by omega, rest,
          ih.mpr ⟨by simpa using hlen, fun x hx => hbound x (by simp [hx]), by omega⟩,
          rfl⟩

/-- The pushed imbalance disjunction is exactly "the one-hot diff values sum
to the target": under an assignment whose diff vectors are one-hot at the
values `dv`, with each value below `N`. -/
theorem totalImbalanceHolds_iff (N target : Nat) (dv : Nat → Nat)
    (hdv : ∀ t, t < N → dv t < N) :
    totalImbalanceHolds N target (fun t k => decide (k = dv t)) = true ↔
      ((List.range N).map dv).sum = target := by
  rw [totalImbalanceHolds]
  have hmem_of_sum : ((List.range N).map dv).sum = target →
      (List.range N).map dv ∈ findCombos N N target := by
    intro hsum
    refine mem_findCombos.mpr ⟨by simp, ?_, hsum⟩
    intro x hx
    simp only [List.mem_map, List.mem_range] at hx
    obtain ⟨t, ht, rfl⟩ := hx
    exact hdv t ht
  by_cases hemp : (findCombos N N target).isEmpty
  · simp only [if_pos hemp]
    constructor
    · intro h; exact absurd h (by simp)
    · intro hsum
      exfalso
      have hmem := hmem_of_sum hsum
      rw [List.isEmpty_iff] at hemp
      rw [hemp] at hmem
      exact List.not_mem_nil _ hmem
  · rw [if_neg hemp, List.any_eq_true]
    constructor
    · rintro ⟨combo, hcombo, hall⟩
      obtain ⟨hlen, -, hsum⟩ := mem_findCombos.mp hcombo
      rw [List.all_eq_true] at hall
      have hcombo_eq : combo = (List.range N).map dv := by
        apply List.ext_getElem (by simp [hlen])
        intro i h1 h2
        have hi : i < N := by rw [hlen] at h1; exact h1
        have hgi := hall i (List.mem_range.mpr hi)
        rw [decide_eq_true_eq, List.getD_eq_getElem combo 0 h1] at hgi
        simp only [List.getElem_map, List.getElem_range]
        exact hgi
      rw [← hcombo_eq]
      exact hsum
    · intro hsum
      refine ⟨(List.range N).map dv, hmem_of_sum hsum, ?_⟩
      rw [List.all_eq_true]
      intro t htm
      have ht := List.mem_range.mp htm
      rw [decide_eq_true_eq, List.getD_eq_getElem _ 0 (by simp [ht])]
      simp

/-- C4: the Z3-path optimization is a linear search over exactly the targets
`[N, N*(N-1)]` in increasing order; the pushed constraint at each candidate
says the per-team differences sum to it; the first satisfied candidate is
the minimum satisfiable one in the range; exhausting the range returns no
solution. -/
theorem linear_search_minimum (N : Nat) (sat : Nat → Bool) (dv : Nat → Nat)
    (hdv : ∀ t, t < N → dv t < N) (target : Nat) :
    (∀ u, u ∈ searchTargets N ↔ N ≤ u ∧ u ≤ N * (N - 1)) ∧
    (totalImbalanceHolds N target (fun t k => decide (k = dv t)) = true ↔
      ((List.range N).map dv).sum = target) ∧
    (∀ r, linearSearch sat (searchTargets N) = some r →
      sat r = true ∧ N ≤ r ∧ r ≤ N * (N - 1) ∧
      ∀ u, N ≤ u → u < r → sat u = false) ∧
    ((∀ u, N ≤ u → u ≤ N * (N - 1) → sat u = false) →
      linearSearch sat (searchTargets N) = none) := by
  refine ⟨fun u => mem_searchTargets, totalImbalanceHolds_iff N target dv hdv, ?_, ?_⟩
  · intro r hr
    obtain ⟨hsat, l₁, l₂, hsplit, hfail⟩ := linearSearch_split hr
    have hr_mem : r ∈ searchTargets N := by
      rw [hsplit]
      exact List.mem_append.mpr (Or.inr (by simp))
    obtain ⟨hrlo, hrhi⟩ := mem_searchTargets.mp hr_mem
    refine ⟨hsat, hrlo, hrhi, ?_⟩
    intro u hulo huhi
    have hu_mem : u ∈ searchTargets N := mem_searchTargets.mpr ⟨hulo, by omega⟩
    have hsorted : (searchTargets N).Pairwise (· < ·) := by
      rw [searchTargets]
      exact List.pairwise_lt_range' _ _ 1
    rw [hsplit] at hsorted hu_mem
    rcases List.mem_append.mp hu_mem with hu1 | hu2
    · exact hfail u hu1
    · exfalso
      rcases List.mem_cons.mp hu2 with rfl | hu3
      · omega
      · have := (List.pairwise_append.mp hsorted).2.1
        rw [List.pairwise_cons] at this
        have := this.1 u hu3
        omega
  · intro hall
    exact linearSearch_none fun u hu => by
      obtain ⟨h1, h2⟩ := mem_searchTargets.mp hu
      exact hall u h1 h2

/-- Witness for C4: the search over `[4, 12]` with a concrete satisfiability
outcome, and the imbalance formula at a concrete one-hot assignment. -/
theorem linear_search_minimum_witness :
    (totalImbalanceHolds 4 4 (fun t k => decide (k = (fun _ : Nat => 1) t)) = true ↔
      ((List.range 4).map (fun _ : Nat => 1)).sum = 4) ∧
    (∀ r, linearSearch (fun u => decide (7 ≤ u)) (searchTargets 4) = some r →
      decide (7 ≤ r) = true ∧ 4 ≤ r ∧ r ≤ 4 * (4 - 1) ∧
      ∀ u, 4 ≤ u → u < r → decide (7 ≤ u) = false) := by
  have h := linear_search_minimum 4 (fun u => decide (7 ≤ u)) (fun _ => 1)
    (fun t _ => by show (1 : Nat) < 4; omega) 4
  exact ⟨h.2.1, h.2.2.1⟩

/-! ## Exactness of the counting encodings (`encode_exact_count`) -/

/-- C5: under the separately asserted exactly-one on the one-hot count
vector, every satisfying assignment of the `encode_exact_count` constraints
has its true count variable at exactly the number of true indicators: the
channeling is bidirectional, so no inconsistent count can be picked. -/
theorem encode_exact_count_channels (inds : List Bool) (cnt : Nat → Bool)
    (maxCount : Nat) (sal sam : Nat → Nat → Nat → Bool)
    (_heo : exactlyOneHolds ((List.range (maxCount + 1)).map cnt) = true)
    (henc : encodeExactCountHolds inds cnt maxCount sal sam = true) :
    ∀ k, k ≤ maxCount → cnt k = true → k = countTrue inds := by
  intro k hk hck
  have hall := List.all_eq_true.mp (by rwa [encodeExactCountHolds] at henc) k
    (List.mem_range.mpr (by omega))
  by_cases h1 : inds.length < k
  · rw [if_pos h1, hck] at hall
    exact absurd hall (by simp)
  rw [if_neg h1] at hall
  by_cases h2 : k = 0
  · subst h2
    rw [if_pos rfl, Bool.and_eq_true] at hall
    obtain ⟨hfwd, -⟩ := hall
    have hnone := impB_eq_true.mp hfwd hck
    rw [List.all_eq_true] at hnone
    have : countTrue inds = 0 := countTrue_eq_zero.mpr fun b hb => by
      simpa using hnone b hb
    omega
  rw [if_neg h2] at hall
  by_cases h3 : k = inds.length
  · rw [if_pos h3, Bool.and_eq_true] at hall
    obtain ⟨hfwd, -⟩ := hall
    have halltrue := impB_eq_true.mp hfwd hck
    rw [h3]
    symm
    rw [countTrue]
    exact List.countP_eq_length.mpr (List.all_eq_true.mp halltrue)
  · rw [if_neg h3, Bool.and_eq_true] at hall
    obtain ⟨hfwd, -⟩ := hall
    have hboth := impB_eq_true.mp hfwd hck
    rw [Bool.and_eq_true] at hboth
    obtain ⟨hal, ham⟩ := hboth
    have hle : countTrue inds ≤ k := atMostKSeq_sound ham
    have hge := atMostKSeq_sound hal
    rw [countTrue_map_not] at hge
    have hlen := countTrue_le_length inds
    omega

/-- Witness for C5: three indicators with two true, count vector one-hot
at 2, canonical sequential-counter auxiliaries. -/
theorem encode_exact_count_channels_witness :
    exactlyOneHolds ((List.range 4).map fun k => decide (k = 2)) = true ∧
    encodeExactCountHolds [true, false, true] (fun k => decide (k = 2)) 3
      (fun _ => canonAux ([true, false, true].map fun b => !b))
      (fun _ => canonAux [true, false, true]) = true ∧
    2 = countTrue [true, false, true] := by
  refine ⟨by decide, by decide, ?_⟩
  exact encode_exact_count_channels [true, false, true] (fun k => decide (k = 2)) 3
    (fun _ => canonAux ([true, false, true].map fun b => !b))
    (fun _ => canonAux [true, false, true])
    (by decide) (by decide) 2 (by omega) (by decide)

/-- C6: `at_most_k` adds nothing when `len(vars) ≤ k`; for `k = 0` the built
formula is the conjunction of all negations; otherwise the sequential
counter formula over the `(n-1)*k` auxiliary rows is satisfiable by some
auxiliary assignment exactly when at most `k` inputs are true. -/
theorem at_most_k_seq_correct (vals : List Bool) (k : Nat) :
    (vals.length ≤ k → ∀ s, atMostKAdded vals k s = []) ∧
    (k = 0 → 0 < vals.length → ∀ s, atMostKSeq vals 0 s = vals.all fun b => !b) ∧
    (0 < k → k < vals.length →
      ((∃ s, atMostKSeq vals k s = true) ↔ countTrue vals ≤ k)) := by
  refine ⟨?_, ?_, ?_⟩
  · intro h s
    rw [atMostKAdded, if_pos h]
  · intro hk0 hlen s
    rw [atMostKSeq, if_neg (by omega), if_pos rfl]
  · intro hk hlen
    constructor
    · rintro ⟨s, hs⟩
      exact atMostKSeq_sound hs
    · intro h
      exact ⟨canonAux vals, atMostKSeq_canon h⟩

/-- Witness for C6: concrete instances of all three regimes. -/
theorem at_most_k_seq_correct_witness :
    (∃ s, atMostKSeq [true, false, true, false] 2 s = true) ∧
    ¬(∃ s, atMostKSeq [true, true, true, false] 2 s = true) ∧
    atMostKAdded [true, false] 2 (fun _ _ => false) = [] ∧
    atMostKSeq [true, true, true] 0 (fun _ _ => false) =
      ([true, true, true].all fun b => !b) := by
  have h1 := at_most_k_seq_correct [true, false, true, false] 2
  have h2 := at_most_k_seq_correct [true, true, true, false] 2
  have h3 := at_most_k_seq_correct [true, false] 2
  have h4 := at_most_k_seq_correct [true, true, true] 0
  refine ⟨(h1.2.2 (by omega) (by decide)).mpr (by decide), ?_,
    h3.1 (by decide) _, h4.2.1 rfl (by decide) _⟩
  intro hex
  have := (h2.2.2 (by omega) (by decide)).mp hex
  exact absurd this (by decide)

/-! ## The solution matrix (`utils.py`, `format_json`) -/

/-- `format_json`'s solution matrix: period-major rows over weeks; each
entry resolves the slot's selected match id through the catalogue `pairs`,
applies the slot's orientation when one exists (home is the first-listed
team iff it is true, first-listed by default), and shifts to one-based team
numbers. -/
def solMatrix (N : Nat) (pairs : Nat → Nat → Nat) (sol : Nat → Nat → Nat)
    (homeFirst : Nat → Nat → Option Bool) : List (List (List Nat)) :=
  (List.range (N / 2)).map fun p =>
    (List.range (N - 1)).map fun w =>
      match homeFirst p w with
      | some hf =>
        if hf then [pairs (sol p w) 0 + 1, pairs (sol p w) 1 + 1]
        else [pairs (sol p w) 1 + 1, pairs (sol p w) 0 + 1]
      | none => [pairs (sol p w) 0 + 1, pairs (sol p w) 1 + 1]

/-- The full content of claim C8: shape of the matrix and the
orientation-resolved one-based entries. -/
def SolMatrixCorrect (N : Nat) (sol : Nat → Nat → Nat)
    (hf : Nat → Nat → Option Bool) : Prop :=
  (solMatrix N (matchTeam N) sol hf).length = N / 2 ∧
  (∀ p, p < N / 2 →
    ((solMatrix N (matchTeam N) sol hf).getD p []).length = N - 1) ∧
  (∀ p, p < N / 2 → ∀ w, w < N - 1 →
    ∃ hm aw,
      ((solMatrix N (matchTeam N) sol hf).getD p []).getD w [] = [hm + 1, aw + 1] ∧
      hm < N ∧ aw < N ∧ hm ≠ aw ∧
      (hf p w = some true →
        hm = matchTeam N (sol p w) 0 ∧ aw = matchTeam N (sol p w) 1) ∧
      (hf p w = some false →
        hm = matchTeam N (sol p w) 1 ∧ aw = matchTeam N (sol p w) 0) ∧
      (hf p w = none →
        hm = matchTeam N (sol p w) 0 ∧ aw = matchTeam N (sol p w) 1))

/-- C8: the matrix handed to the JSON formatter is period-major by week;
each entry is the `[home, away]` pair of one-based team numbers of the
slot's selected match, with home the first-listed team exactly when the
orientation boolean is true (first-listed by default when absent). -/
theorem sol_matrix_correct (N : Nat) (h2 : N % 2 = 0) (h4 : 4 ≤ N)
    (sol : Nat → Nat → Nat) (hf : Nat → Nat → Option Bool)
    (hsol : ∀ p, p < N / 2 → ∀ w, w < N - 1 → sol p w < totalMatches N) :
    SolMatrixCorrect N sol hf := by
  have hlen : (solMatrix N (matchTeam N) sol hf).length = N / 2 := by
    rw [solMatrix, List.length_map, List.length_range]
  have hrow : ∀ p, p < N / 2 →
      (solMatrix N (matchTeam N) sol hf).getD p [] =
        (List.range (N - 1)).map fun w =>
          match hf p w with
          | some hfb =>
            if hfb then [matchTeam N (sol p w) 0 + 1, matchTeam N (sol p w) 1 + 1]
            else [matchTeam N (sol p w) 1 + 1, matchTeam N (sol p w) 0 + 1]
          | none => [matchTeam N (sol p w) 0 + 1, matchTeam N (sol p w) 1 + 1] := by
    intro p hp
    rw [solMatrix, List.getD_eq_getElem _ _
      (by rw [List.length_map, List.length_range]; exact hp)]
    rw [List.getElem_map, List.getElem_range]
  refine ⟨hlen, ?_, ?_⟩
  · intro p hp
    rw [hrow p hp, List.length_map, List.length_range]
  · intro p hp w hw
    have hentry : ((solMatrix N (matchTeam N) sol hf).getD p []).getD w [] =
        match hf p w with
        | some hfb =>
          if hfb then [matchTeam N (sol p w) 0 + 1, matchTeam N (sol p w) 1 + 1]
          else [matchTeam N (sol p w) 1 + 1, matchTeam N (sol p w) 0 + 1]
        | none => [matchTeam N (sol p w) 0 + 1, matchTeam N (sol p w) 1 + 1] := by
      rw [hrow p hp,
        List.getD_eq_getElem _ _ (by rw [List.length_map, List.length_range]; exact hw),
        List.getElem_map, List.getElem_range]
    obtain ⟨hb0, hb1, hbne⟩ := matchTeam_bounds h2 h4 (hsol p hp w hw)
    rcases hhf : hf p w with - | hfb
    · refine ⟨matchTeam N (sol p w) 0, matchTeam N (sol p w) 1, ?_, hb0, hb1, hbne,
        fun hcontra => absurd hcontra (by simp),
        fun hcontra => absurd hcontra (by simp), fun _ => ⟨rfl, rfl⟩⟩
      rw [hentry, hhf]
    · cases hfb with
      | true =>
        refine ⟨matchTeam N (sol p w) 0, matchTeam N (sol p w) 1, ?_, hb0, hb1, hbne,
          fun _ => ⟨rfl, rfl⟩, fun hcontra => absurd hcontra (by simp),
          fun hcontra => absurd hcontra (by simp)⟩
        rw [hentry, hhf]
        rfl
      | false =>
        refine ⟨matchTeam N (sol p w) 1, matchTeam N (sol p w) 0, ?_, hb1, hb0,
          fun h => hbne h.symm, fun hcontra => absurd hcontra (by simp),
          fun _ => ⟨rfl, rfl⟩, fun hcontra => absurd hcontra (by simp)⟩
        rw [hentry, hhf]
        rfl

/-- Witness for C8 at `N = 6` with the concrete schedule and orientations. -/
theorem sol_matrix_correct_witness :
    6 % 2 = 0 ∧ 4 ≤ 6 ∧
    (∀ p, p < 6 / 2 → ∀ w, w < 6 - 1 → sched6 p w < totalMatches 6) ∧
    SolMatrixCorrect 6 sched6 (fun p w => some (homeFirst6 p w)) := by
  refine ⟨rfl, by omega, by decide, ?_⟩
  exact sol_matrix_correct 6 rfl (by omega) sched6 (fun p w => some (homeFirst6 p w))
    (by decide)

/-! ## Solver backends (`solver_backend.py`) -/

/-- Outcome of a Python method call: a normal return or a raised exception. -/
inductive PyOutcome (α : Type) where
  | ret : α → PyOutcome α
  | raised : String → PyOutcome α

/-- `SolverBackend.minimize` (the abstract base class): raises. -/
def SolverBackend.minimizeBase : PyOutcome Unit := .raised "NotImplementedError"

/-- `SolverBackend.push` (the abstract base class): raises. -/
def SolverBackend.pushBase : PyOutcome Unit := .raised "NotImplementedError"

/-- `Z3Backend` state: its z3 solver's asserted constraints and scopes. -/
structure Z3BackendState (φ : Type) where
  asserted : List φ
  scopes : List Nat

/-- `Z3Backend.minimize`: `return None` — a normal return that leaves the
backend untouched. -/
def Z3Backend.minimize (self : Z3BackendState φ) (_objective : α) :
    PyOutcome (Option Unit) × Z3BackendState φ :=
  (.ret none, self)

/-- `ORToolsBackend` state: the model's constraints and the workaround
constraint-count stack maintained by push/pop. -/
structure ORToolsBackendState (φ : Type) where
  modelConstraints : List φ
  constraintStack : List Nat

/-- `ORToolsBackend.push`: appends the current constraint count to the
stack and returns normally; the model itself is untouched. -/
def ORToolsBackend.push (self : ORToolsBackendState φ) :
    PyOutcome Unit × ORToolsBackendState φ :=
  (.ret (), ⟨self.modelConstraints,
    self.constraintStack ++ [self.modelConstraints.length]⟩)

/-- `ORToolsBackend.pop`: drops the recorded count when the stack is
nonempty and returns normally; the constraint set is not restored. -/
def ORToolsBackend.pop (self : ORToolsBackendState φ) :
    PyOutcome Unit × ORToolsBackendState φ :=
  if self.constraintStack = [] then (.ret (), self)
  else (.ret (), ⟨self.modelConstraints, self.constraintStack.dropLast⟩)

/-- Counterexample for C9: at a concrete state, `Z3Backend.minimize` returns
`None` normally — it does not raise a capability error — and
`ORToolsBackend.push` returns normally as well. -/
theorem backend_capability_mismatch_cex :
    (Z3Backend.minimize (⟨["c"], []⟩ : Z3BackendState String) 0).1 =
      PyOutcome.ret none ∧
    (Z3Backend.minimize (⟨["c"], []⟩ : Z3BackendState String) 0).2 =
      (⟨["c"], []⟩ : Z3BackendState String) ∧
    (Z3Backend.minimize (⟨["c"], []⟩ : Z3BackendState String) 0).1 ≠
      PyOutcome.raised "NotImplementedError" ∧
    (ORToolsBackend.push (⟨["c"], []⟩ : ORToolsBackendState String)).1 =
      PyOutcome.ret () ∧
    (ORToolsBackend.push (⟨["c"], []⟩ : ORToolsBackendState String)).1 ≠
      PyOutcome.raised "NotImplementedError" :=
  ⟨rfl, rfl, fun h => PyOutcome.noConfusion h, rfl,
   fun h => PyOutcome.noConfusion h⟩

/-- C9 (amended): the concrete backends silently degrade rather than fail
fast — `Z3Backend.minimize` returns `None` and leaves the state unchanged,
`ORToolsBackend.push`/`pop` return normally and only record or discard a
constraint count while the model's constraint set stays as it was; only the
abstract `SolverBackend` base class raises `NotImplementedError`. -/
theorem backend_capability_mismatch_silent (φ α : Type) (st : Z3BackendState φ)
    (obj : α) (ot : ORToolsBackendState φ) :
    Z3Backend.minimize st obj = (PyOutcome.ret none, st) ∧
    (ORToolsBackend.push ot).1 = PyOutcome.ret () ∧
    (ORToolsBackend.push ot).2.modelConstraints = ot.modelConstraints ∧
    (ORToolsBackend.pop ot).1 = PyOutcome.ret () ∧
    (ORToolsBackend.pop ot).2.modelConstraints = ot.modelConstraints ∧
    SolverBackend.minimizeBase = PyOutcome.raised "NotImplementedError" ∧
    SolverBackend.pushBase = PyOutcome.raised "NotImplementedError" := by
  refine ⟨rfl, rfl, rfl, ?_, ?_, rfl, rfl⟩
  · rw [ORToolsBackend.pop]
    split <;> rfl
  · rw [ORToolsBackend.pop]
    split <;> rfl

/-! ## Exactly-one on the empty list (C10) -/

/-- C10: `exactly_one` on the empty list returns `False` without adding any
constraint, so the solver's constraint set — and hence its satisfiability —
is unchanged. -/
theorem exactly_one_empty_noop :
    exactlyOneAdded ([] : List Bool) = [] ∧
    exactlyOneRet ([] : List Bool) = some false ∧
    (∀ C : List Bool,
      (C ++ exactlyOneAdded []).all (fun b => b) = C.all (fun b => b)) := by
  refine ⟨rfl, rfl, fun C => ?_⟩
  rw [show exactlyOneAdded ([] : List Bool) = [] from rfl, List.append_nil]

end SportsSched
